import Mathlib

/-!
# Hungarian lottery matcher: `lottoApp.cpp`

A shallow embedding of the matching engine of `src/lottoApp.cpp`
(`countMatches`, `threadWorker`, `readBets`, `readDrawnValues` and `main`)
together with the properties of it that the specification states.

Modelling conventions

* `array<bool, 91>` is a function `Fin 91 → Bool`; `array<int, 4>` is a
  function `Fin 4 → Nat`; `vector<int>` is `List Int`.
* `operator[]` of `std::array` and `std::vector` does no bounds check. An
  access outside the container is undefined behaviour in the source; every
  function that indexes returns an `Option`, and `none` stands for such an
  access (or, in `betsPerThread`, for the division by zero).
* The `int` counters (`matches`, the tallies) only ever grow by one from
  zero; they are natural numbers here, without the 32-bit bound.
* The worker threads are run one after the other: each thread writes only
  its own `localCounts[t]` and reads `bets` and `isDrawn`, which nobody
  writes while the threads run, and `main` joins all of them before it
  reads any `localCounts[t]`.
* The bet file and the standard input are lists of lines, as `std::getline`
  delivers them; the standard output is the list of the lines written; the
  standard error is left out. The program name is taken to be present, so
  `argc` is one more than the number of arguments.
* A formatted read `stream >> value` of an `int` follows the rules of the
  standard library since C++11 in the classic locale: a read on a failed or
  exhausted stream leaves the variable alone, a read that finds no number
  stores 0, and a read of a number outside the range of `int` stores the
  nearest bound; each of them sets `failbit`.
-/

namespace LottoApp

/-- The lookup table `array<bool, 91> isDrawn`. -/
abbrev DrawTable := Fin 91 → Bool

/-- The counters `array<int, 4>`: `localCounts[t]` and `matchCounts`. -/
abbrev Tally := Fin 4 → Nat

/-- The value-initialised table `array<bool, 91> isDrawn = {}`. -/
def emptyTable : DrawTable := fun _ => false

/-- The zero counters `{0, 0, 0, 0}`. -/
def zeroTally : Tally := fun _ => 0

/-- The read `isDrawn[num]`: `none` when `num` is not an index of the
91-entry array. -/
def readTable (isDrawn : DrawTable) (num : Int) : Option Bool :=
  if h : 0 ≤ num ∧ num < 91 then some (isDrawn ⟨num.toNat, by omega⟩) else none

/-- The write `isDrawn[num] = true`: `none` when `num` is not an index of the
91-entry array. -/
def markDrawn (isDrawn : DrawTable) (num : Int) : Option DrawTable :=
  if h : 0 ≤ num ∧ num < 91 then
    some (Function.update isDrawn ⟨num.toNat, by omega⟩ true)
  else none

/-- The loop of `countMatches`, from the running value of `matches`:
`for (int num : bet) matches += isDrawn[num];`. -/
def countMatchesFrom (isDrawn : DrawTable) : List Int → Nat → Option Nat
  | [], acc => some acc
  | num :: rest, acc =>
    match readTable isDrawn num with
    | none => none
    | some b => countMatchesFrom isDrawn rest (acc + (if b then 1 else 0))

/-- The function `countMatches(isDrawn, bet)`. -/
def countMatches (isDrawn : DrawTable) (bet : List Int) : Option Nat :=
  countMatchesFrom isDrawn bet 0

/-- The statement `if (matches >= 2 && matches <= 5) localCounts[matches - 2]++;`. -/
def bump (localCounts : Tally) (m : Nat) : Tally :=
  if h : 2 ≤ m ∧ m ≤ 5 then
    Function.update localCounts ⟨m - 2, by omega⟩ (localCounts ⟨m - 2, by omega⟩ + 1)
  else localCounts

/-- The loop of `threadWorker` with `k` iterations left, at index `i`:
`for (size_t i = startIdx; i < endIdx; ++i)`. -/
def threadWorkerFrom (bets : List (List Int)) (isDrawn : DrawTable) :
    Nat → Nat → Tally → Option Tally
  | 0, _, localCounts => some localCounts
  | k + 1, i, localCounts =>
    match bets[i]? with
    | none => none
    | some bet =>
      match countMatches isDrawn bet with
      | none => none
      | some m => threadWorkerFrom bets isDrawn k (i + 1) (bump localCounts m)

/-- The function `threadWorker(bets, isDrawn, localCounts, startIdx, endIdx)`;
the result is the final value of `localCounts`. The loop runs
`endIdx - startIdx` times (no time when `endIdx ≤ startIdx`). -/
def threadWorker (bets : List (List Int)) (isDrawn : DrawTable)
    (localCounts : Tally) (startIdx endIdx : Nat) : Option Tally :=
  threadWorkerFrom bets isDrawn (endIdx - startIdx) startIdx localCounts

/-- The loop `for (int num : drawn) isDrawn[num] = true;` of `main`. -/
def markAll : List Int → DrawTable → Option DrawTable
  | [], isDrawn => some isDrawn
  | num :: rest, isDrawn =>
    match markDrawn isDrawn num with
    | none => none
    | some isDrawn1 => markAll rest isDrawn1

/-- The lookup table that `main` builds for a draw. -/
def buildIsDrawn (drawn : List Int) : Option DrawTable :=
  markAll drawn emptyTable

/-- The value `size_t numThreads = thread::hardware_concurrency();` of `main`,
from the number the platform reports. -/
def numThreads (hardwareConcurrency : Nat) : Nat := hardwareConcurrency

/-- The value `size_t betsPerThread = bets.size() / numThreads;` of `main`:
`none` is the division by zero. -/
def betsPerThread (betsSize nThreads : Nat) : Option Nat :=
  if nThreads = 0 then none else some (betsSize / nThreads)

/-- The value `size_t startIdx = t * betsPerThread;`. -/
def startIdx (bpt t : Nat) : Nat := t * bpt

/-- The value
`size_t endIdx = (t == numThreads - 1) ? bets.size() : (startIdx + betsPerThread);`. -/
def endIdx (betsSize nThreads bpt t : Nat) : Nat :=
  if t = nThreads - 1 then betsSize else startIdx bpt t + bpt

/-- The launch loop `for (size_t t = 0; t < numThreads; ++t)` with `k`
threads left to launch, at thread `t`; every thread starts from its own
zero `localCounts[t]`. The result is the vector `localCounts` after the
join. -/
def launchFrom (bets : List (List Int)) (isDrawn : DrawTable) (nThreads bpt : Nat) :
    Nat → Nat → Option (List Tally)
  | 0, _ => some []
  | k + 1, t =>
    match threadWorker bets isDrawn zeroTally (startIdx bpt t)
        (endIdx bets.length nThreads bpt t) with
    | none => none
    | some local1 =>
      match launchFrom bets isDrawn nThreads bpt k (t + 1) with
      | none => none
      | some rest => some (local1 :: rest)

/-- The vector `localCounts` of `main` once every thread has been joined. -/
def launchThreads (bets : List (List Int)) (isDrawn : DrawTable)
    (nThreads bpt : Nat) : Option (List Tally) :=
  launchFrom bets isDrawn nThreads bpt nThreads 0

/-- The inner loop `for (size_t i = 0; i < 4; ++i) matchCounts[i] += local[i];`. -/
def addTally (matchCounts local1 : Tally) : Tally :=
  fun i => matchCounts i + local1 i

/-- The aggregation loop `for (const auto& local : localCounts)` from a
running `matchCounts`. -/
def aggregateFrom (matchCounts : Tally) (localCounts : List Tally) : Tally :=
  localCounts.foldl addTally matchCounts

/-- The aggregation of `main`, from `matchCounts = {0, 0, 0, 0}`. -/
def aggregate (localCounts : List Tally) : Tally :=
  aggregateFrom zeroTally localCounts

/-- The four numbers of a tally in the order `main` prints them. -/
def printed (matchCounts : Tally) : List Nat :=
  [matchCounts 0, matchCounts 1, matchCounts 2, matchCounts 3]

/-- The split, the worker passes and the aggregation of one draw cycle for a
given lookup table, worker count and bets per worker. -/
def dispatch (bets : List (List Int)) (isDrawn : DrawTable)
    (nThreads bpt : Nat) : Option Tally :=
  match launchThreads bets isDrawn nThreads bpt with
  | none => none
  | some localCounts => some (aggregate localCounts)

/-- One draw cycle of `main` for the parsed draw `drawn`: build the table,
dispatch, aggregate. The result is the final `matchCounts`. -/
def drawCycle (bets : List (List Int)) (nThreads bpt : Nat)
    (drawn : List Int) : Option Tally :=
  match buildIsDrawn drawn with
  | none => none
  | some isDrawn => dispatch bets isDrawn nThreads bpt

/-- The tally `main` reports for a draw when the platform reports
`hardwareConcurrency` and the bet file holds `bets`. -/
def mainTally (hardwareConcurrency : Nat) (bets : List (List Int))
    (drawn : List Int) : Option Tally :=
  match betsPerThread bets.length (numThreads hardwareConcurrency) with
  | none => none
  | some bpt => drawCycle bets (numThreads hardwareConcurrency) bpt drawn

/-- The numbers of the result line of `main` for a draw. -/
def mainReport (hardwareConcurrency : Nat) (bets : List (List Int))
    (drawn : List Int) : Option (List Nat) :=
  (mainTally hardwareConcurrency bets drawn).map printed

/-- The bet store of the scenarios of the specification. -/
def scenarioBets : List (List Int) :=
  [[1, 2, 3, 4, 5], [1, 2, 6, 7, 8], [9, 10, 11, 12, 13]]

/-- A value that is an index of the 91-entry lookup table. -/
def InRange (v : Int) : Prop := 0 ≤ v ∧ v ≤ 90

instance (v : Int) : Decidable (InRange v) := by
  unfold InRange; infer_instance

/-- The number of positions of `bet` whose value is marked `true` in
`isDrawn`, a repeated value counted once per position. -/
def markedPositions (isDrawn : DrawTable) (bet : List Int) : Nat :=
  bet.countP (fun v => decide (readTable isDrawn v = some true))

/-- The number of bets of `bets` with exactly `m` matches. -/
def betsWithMatches (isDrawn : DrawTable) (bets : List (List Int)) (m : Nat) : Nat :=
  bets.countP (fun bet => decide (countMatches isDrawn bet = some m))

/-- The sum of the four counters. -/
def tallySum (matchCounts : Tally) : Nat :=
  matchCounts 0 + matchCounts 1 + matchCounts 2 + matchCounts 3

/-- Every value of every bet is an index of the lookup table. -/
def BetsInRange (bets : List (List Int)) : Prop :=
  ∀ bet ∈ bets, ∀ v ∈ bet, InRange v

instance (bets : List (List Int)) : Decidable (BetsInRange bets) := by
  unfold BetsInRange; infer_instance

/-- Every value of the draw is an index of the lookup table. -/
def DrawInRange (drawn : List Int) : Prop :=
  ∀ v ∈ drawn, InRange v

instance (drawn : List Int) : Decidable (DrawInRange drawn) := by
  unfold DrawInRange; infer_instance

/-- The lookup table with exactly the numbers 1, 2, 3, 4, 5 marked. -/
def scenarioTable : DrawTable := fun n => decide (1 ≤ n.val ∧ n.val ≤ 5)

/-- The state of a `std::istringstream`: the characters not yet read and
whether `failbit` is set. -/
structure InputStream where
  /-- The characters not yet read. -/
  buf : List Char
  /-- Whether `failbit` is set. -/
  failed : Bool
deriving DecidableEq

/-- The smallest value of an `int`. -/
def intMin : Int := -2147483648

/-- The largest value of an `int`. -/
def intMax : Int := 2147483647

/-- The white space that a formatted read skips (`std::isspace` in the
classic locale): space, tab, line feed, vertical tab, form feed, carriage
return. -/
def isSpace (c : Char) : Bool :=
  c = ' ' || c = Char.ofNat 9 || c = Char.ofNat 10 || c = Char.ofNat 11 ||
    c = Char.ofNat 12 || c = Char.ofNat 13

/-- The number that a run of decimal digits denotes. -/
def decimalValue (digits : List Char) : Nat :=
  digits.foldl (fun acc c => acc * 10 + (c.toNat - 48)) 0

/-- The library call `stream >> value` for an `int` variable holding `old`;
the result is the new value of the variable and the new stream state. A
stream that has failed reads nothing and leaves the variable alone. Otherwise
white space is skipped; at the end of the text the read fails and leaves the
variable alone; an optional sign and the longest run of digits are read; with
no digit the read fails and stores 0; a number outside the range of `int`
makes the read fail and stores the nearest bound. -/
def extractInt (s : InputStream) (old : Int) : Int × InputStream :=
  if s.failed then (old, s)
  else
    match s.buf.dropWhile isSpace with
    | [] => (old, ⟨[], true⟩)
    | c :: cs =>
      let body := if c = '-' ∨ c = '+' then cs else c :: cs
      let digits := body.takeWhile Char.isDigit
      let value : Int :=
        if c = '-' then -(decimalValue digits : Int) else (decimalValue digits : Int)
      if digits = [] then (0, ⟨body, true⟩)
      else if value < intMin then (intMin, ⟨body.dropWhile Char.isDigit, true⟩)
      else if intMax < value then (intMax, ⟨body.dropWhile Char.isDigit, true⟩)
      else (value, ⟨body.dropWhile Char.isDigit, false⟩)

/-- The loop `for (int i = 0; i < 5; ++i) inputStream >> drawn[i];` of
`readDrawnValues` with `k` iterations left, at index `i`; `none` when
`drawn[i]` is outside the vector. -/
def readDrawnFrom : Nat → Nat → InputStream → List Int → Option (List Int)
  | 0, _, _, drawn => some drawn
  | k + 1, i, s, drawn =>
    match drawn[i]? with
    | none => none
    | some old =>
      readDrawnFrom k (i + 1) (extractInt s old).2 (drawn.set i (extractInt s old).1)

/-- The function `readDrawnValues(inputLine, drawn)`; the result is the final
value of `drawn`. -/
def readDrawnValues (inputLine : String) (drawn : List Int) : Option (List Int) :=
  readDrawnFrom 5 0 ⟨inputLine.toList, false⟩ drawn

/-- The loop `while (iss >> number) dataLine.push_back(number);` of
`readBets`. Every turn that does not end the loop reads at least one
character, so the loop makes at most as many turns as the line has
characters, plus the last one; `fuel` bounds the turns and `none` means
that the bound was too small. -/
def readBetFrom : Nat → InputStream → List Int → Option (List Int)
  | 0, _, _ => none
  | fuel + 1, s, dataLine =>
    if (extractInt s 0).2.failed then some dataLine
    else readBetFrom fuel (extractInt s 0).2 (dataLine ++ [(extractInt s 0).1])

/-- The bet that `readBets` parses from one line of the bet file. -/
def readBetLine (line : String) : Option (List Int) :=
  readBetFrom (line.length + 1) ⟨line.toList, false⟩ []

/-- The function `readBets(filename, bets)` on the lines of the file (no
line when the file cannot be opened), from an empty `bets`; the result is
the final value of `bets`. The `READY` line that it prints is emitted by
`main` below. -/
def readBets : List String → Option (List (List Int))
  | [] => some []
  | line :: rest =>
    match readBetLine line with
    | none => none
    | some dataLine =>
      match readBets rest with
      | none => none
      | some bets => some (dataLine :: bets)

/-- The line that `main` prints for a tally:
`cout << matchCounts[i] << (i < 3 ? " " : "\n")` for `i = 0 .. 3`. -/
def formatTally (matchCounts : Tally) : String :=
  toString (matchCounts 0) ++ " " ++ toString (matchCounts 1) ++ " " ++
    toString (matchCounts 2) ++ " " ++ toString (matchCounts 3) ++ "\n"

/-- The variables of `main` that live across the draw loop, with the text
written to the standard output so far, one entry per line. -/
structure MainState where
  /-- The vector `bets`. -/
  bets : List (List Int)
  /-- The variable `numThreads`. -/
  numThreads : Nat
  /-- The variable `betsPerThread`. -/
  betsPerThread : Nat
  /-- The lines written to the standard output. -/
  out : List String
deriving DecidableEq

/-- The body of the draw loop of `main` for a line that is not the finishing
token: read the draw into a fresh `drawn(5)`, build the table, dispatch,
aggregate, print. -/
def drawStep (st : MainState) (inputLine : String) : Option MainState :=
  match readDrawnValues inputLine (List.replicate 5 0) with
  | none => none
  | some drawn =>
    match drawCycle st.bets st.numThreads st.betsPerThread drawn with
    | none => none
    | some matchCounts => some { st with out := st.out ++ [formatTally matchCounts] }

/-- The loop `while (std::getline(std::cin, inputLine))` of `main` on the
lines of the standard input: it ends at the end of the input or at the
first line equal to `end`. -/
def drawLoop (st : MainState) : List String → Option MainState
  | [] => some st
  | inputLine :: rest =>
    if inputLine = "end" then some st
    else
      match drawStep st inputLine with
      | none => none
      | some st1 => drawLoop st1 rest

/-- The function `main` for the command-line arguments `args` that follow the
program name (so `argc = args.length + 1` and `argv[1]` is the first of
them), the lines of the file that `argv[1]` names, the reported hardware
parallelism and the lines of the standard input. The result is the exit code
and the lines written to the standard output; the message for a missing
argument goes to the standard error and is not part of it. -/
def main (args : List String) (fileLines : List String) (hardwareConcurrency : Nat)
    (stdinLines : List String) : Option (Nat × List String) :=
  if args.length + 1 < 2 then some (1, [])
  else
    match readBets fileLines with
    | none => none
    | some bets =>
      match betsPerThread bets.length (numThreads hardwareConcurrency) with
      | none => none
      | some bpt =>
        match drawLoop ⟨bets, numThreads hardwareConcurrency, bpt, ["READY\n"]⟩
            stdinLines with
        | none => none
        | some st => some (0, st.out)

/-- The input lines that come before the first line equal to `end`. -/
def beforeSentinel (stdinLines : List String) : List String :=
  stdinLines.takeWhile (fun inputLine => decide (inputLine ≠ "end"))

/-- The values that the first `n` reads of `>>` extract from a stream
before a read fails. -/
def parsedValues : Nat → InputStream → List Int
  | 0, _ => []
  | n + 1, s =>
    if (extractInt s 0).2.failed then []
    else (extractInt s 0).1 :: parsedValues n (extractInt s 0).2

/-- The size of the range of thread `t`. -/
def rangeSize (betsSize nThreads bpt t : Nat) : Nat :=
  endIdx betsSize nThreads bpt t - startIdx bpt t

/-- The number of bets of `bets` with at least 2 matches. -/
def betsWithTwoOrMore (isDrawn : DrawTable) (bets : List (List Int)) : Nat :=
  bets.countP (fun bet =>
    match countMatches isDrawn bet with
    | none => false
    | some m => decide (2 ≤ m))

/-- The values that `k` reads of `>>` leave in `k` variables that hold 0
before the reads. -/
def storedValues : Nat → InputStream → List Int
  | 0, _ => []
  | k + 1, s => (extractInt s 0).1 :: storedValues k (extractInt s 0).2

/-- The line that one turn of the draw loop prints for an input line, from
the variables of `main` that the turn reads. -/
def resultLine (bets : List (List Int)) (nThreads bpt : Nat)
    (inputLine : String) : Option String :=
  match readDrawnValues inputLine (List.replicate 5 0) with
  | none => none
  | some drawn => (drawCycle bets nThreads bpt drawn).map formatTally

/-- The lines that the draw loop prints for a list of input lines none of
which is the finishing token, each line processed on its own. -/
def resultLines (bets : List (List Int)) (nThreads bpt : Nat) :
    List String → Option (List String)
  | [] => some []
  | inputLine :: rest =>
    match resultLine bets nThreads bpt inputLine with
    | none => none
    | some r =>
      match resultLines bets nThreads bpt rest with
      | none => none
      | some rs => some (r :: rs)

/-- The draw that a line is read into has only indices of the table. -/
def LineInRange (inputLine : String) : Prop :=
  ∀ drawn, readDrawnValues inputLine (List.replicate 5 0) = some drawn → DrawInRange drawn

/-- The variables of `main` at the start of the draw loop for the bets of the
scenarios of the specification and 2 worker threads. -/
def scenarioState : MainState := ⟨scenarioBets, 2, 1, ["READY\n"]⟩

/-- The number, of any size, that the text at the front of a stream denotes:
after white space, an optional sign and a run of at least one digit; `none`
at the end of the text and before text that is no number. -/
def pendingNumber (s : InputStream) : Option Int :=
  match s.buf.dropWhile isSpace with
  | [] => none
  | c :: cs =>
    if ((if c = '-' ∨ c = '+' then cs else c :: cs).takeWhile Char.isDigit) = [] then none
    else if c = '-' then
      some (-(decimalValue
        ((if c = '-' ∨ c = '+' then cs else c :: cs).takeWhile Char.isDigit) : Int))
    else
      some (decimalValue
        ((if c = '-' ∨ c = '+' then cs else c :: cs).takeWhile Char.isDigit) : Int)

/-- The stream where the first `n` reads of `>>` stop: before the first read
that fails, or after `n` reads that succeed. -/
def stopStream : Nat → InputStream → InputStream
  | 0, s => s
  | n + 1, s =>
    if (extractInt s 0).2.failed then s else stopStream n (extractInt s 0).2

/-! ## `countMatches` -/

theorem readTable_isSome_of_inRange (isDrawn : DrawTable) (v : Int) (h : InRange v) :
    ∃ b, readTable isDrawn v = some b := by
  have h1 : 0 ≤ v ∧ v < 91 := ⟨h.1, by have := h.2; omega⟩
  exact ⟨_, dif_pos h1⟩

theorem readTable_none_of_not_inRange (isDrawn : DrawTable) (v : Int) (h : ¬ InRange v) :
    readTable isDrawn v = none := by
  have h1 : ¬ (0 ≤ v ∧ v < 91) := by
    intro h2
    exact h ⟨h2.1, by have := h2.2; omega⟩
  exact dif_neg h1

theorem countMatchesFrom_eq (isDrawn : DrawTable) (bet : List Int) :
    ∀ acc r, countMatchesFrom isDrawn bet acc = some r →
      r = acc + markedPositions isDrawn bet := by
  induction bet with
  | nil =>
    intro acc r h
    simp [countMatchesFrom] at h
    simp [markedPositions, h]
  | cons v rest ih =>
    intro acc r h
    unfold countMatchesFrom at h
    cases hb : readTable isDrawn v with
    | none => rw [hb] at h; exact absurd h (by simp)
    | some b =>
      rw [hb] at h
      have h2 := ih _ _ h
      unfold markedPositions at h2 ⊢
      cases b <;> simp [List.countP_cons, hb] at h2 ⊢ <;> omega

theorem countMatchesFrom_isSome (isDrawn : DrawTable) (bet : List Int)
    (hr : ∀ v ∈ bet, InRange v) :
    ∀ acc, ∃ r, countMatchesFrom isDrawn bet acc = some r := by
  induction bet with
  | nil => intro acc; exact ⟨acc, rfl⟩
  | cons v rest ih =>
    intro acc
    obtain ⟨b, hb⟩ := readTable_isSome_of_inRange isDrawn v (hr v (List.mem_cons_self _ _))
    have ih2 := ih (fun w hw => hr w (List.mem_cons_of_mem _ hw))
        (acc + (if b then 1 else 0))
    obtain ⟨r, hr2⟩ := ih2
    refine ⟨r, ?_⟩
    unfold countMatchesFrom
    rw [hb]
    exact hr2

theorem countMatchesFrom_none (isDrawn : DrawTable) (bet : List Int)
    (hr : ∃ v ∈ bet, ¬ InRange v) :
    ∀ acc, countMatchesFrom isDrawn bet acc = none := by
  induction bet with
  | nil => obtain ⟨v, hv, _⟩ := hr; exact absurd hv (List.not_mem_nil v)
  | cons w rest ih =>
    intro acc
    unfold countMatchesFrom
    by_cases hw : InRange w
    · obtain ⟨b, hb⟩ := readTable_isSome_of_inRange isDrawn w hw
      rw [hb]
      apply ih
      obtain ⟨v, hv, hnv⟩ := hr
      rcases List.mem_cons.mp hv with h1 | h1
      · exact absurd (h1 ▸ hw) hnv
      · exact ⟨v, h1, hnv⟩
    · rw [readTable_none_of_not_inRange isDrawn w hw]

theorem countMatches_eq_marked (isDrawn : DrawTable) (bet : List Int)
    (hr : ∀ v ∈ bet, InRange v) :
    countMatches isDrawn bet = some (markedPositions isDrawn bet) := by
  obtain ⟨r, h⟩ := countMatchesFrom_isSome isDrawn bet hr 0
  have h2 := countMatchesFrom_eq isDrawn bet 0 r h
  unfold countMatches
  rw [h, h2, Nat.zero_add]

theorem markedPositions_le (isDrawn : DrawTable) (bet : List Int) :
    markedPositions isDrawn bet ≤ bet.length :=
  List.countP_le_length _

/-! ## `threadWorker` -/

theorem addTally_zero (a : Tally) : addTally a zeroTally = a := by
  funext i; simp [addTally, zeroTally]

theorem addTally_assoc (a b c : Tally) :
    addTally (addTally a b) c = addTally a (addTally b c) := by
  funext i; simp [addTally, Nat.add_assoc]

theorem addTally_right_comm (a b c : Tally) :
    addTally (addTally a b) c = addTally (addTally a c) b := by
  funext i; simp only [addTally]; omega

theorem bump_eq_add (localCounts : Tally) (m : Nat) :
    bump localCounts m = addTally localCounts (bump zeroTally m) := by
  funext i
  unfold bump addTally
  by_cases h : 2 ≤ m ∧ m ≤ 5
  · simp only [dif_pos h, Function.update_apply]
    by_cases hi : i = ⟨m - 2, by omega⟩
    · simp [hi, zeroTally]
    · simp [hi, zeroTally]
  · simp [dif_neg h, zeroTally]

/-- One iteration of the loop of `threadWorker`. -/
theorem threadWorkerFrom_succ (bets : List (List Int)) (isDrawn : DrawTable)
    (k i : Nat) (localCounts : Tally) :
    threadWorkerFrom bets isDrawn (k + 1) i localCounts =
      (bets[i]?).bind (fun bet => (countMatches isDrawn bet).bind
        (fun m => threadWorkerFrom bets isDrawn k (i + 1) (bump localCounts m))) := by
  rw [threadWorkerFrom]
  cases bets[i]? with
  | none => rfl
  | some bet =>
    simp only [Option.some_bind]
    cases countMatches isDrawn bet with
    | none => rfl
    | some m => rfl

/-- A worker pass from a running tally is the pass from zero, added to it. -/
theorem threadWorkerFrom_add (bets : List (List Int)) (isDrawn : DrawTable) :
    ∀ k i localCounts, threadWorkerFrom bets isDrawn k i localCounts =
      (threadWorkerFrom bets isDrawn k i zeroTally).map (addTally localCounts) := by
  intro k
  induction k with
  | zero => intro i lc; simp [threadWorkerFrom, addTally_zero]
  | succ k ih =>
    intro i lc
    rw [threadWorkerFrom_succ, threadWorkerFrom_succ]
    cases bets[i]? with
    | none => rfl
    | some bet =>
      simp only [Option.some_bind]
      cases countMatches isDrawn bet with
      | none => rfl
      | some m =>
        simp only [Option.some_bind]
        rw [ih (i + 1) (bump lc m), ih (i + 1) (bump zeroTally m), bump_eq_add lc m]
        cases threadWorkerFrom bets isDrawn k (i + 1) zeroTally with
        | none => rfl
        | some r => simp [addTally_assoc]

/-- A worker pass over `k1 + k2` bets is the pass over the first `k1`
followed by the pass over the next `k2`. -/
theorem threadWorkerFrom_append (bets : List (List Int)) (isDrawn : DrawTable) (k2 : Nat) :
    ∀ k1 i localCounts, threadWorkerFrom bets isDrawn (k1 + k2) i localCounts =
      (threadWorkerFrom bets isDrawn k1 i localCounts).bind
        (threadWorkerFrom bets isDrawn k2 (i + k1)) := by
  intro k1
  induction k1 with
  | zero => intro i lc; simp [threadWorkerFrom]
  | succ k1 ih =>
    intro i lc
    have e : k1 + 1 + k2 = (k1 + k2) + 1 := by omega
    rw [e, threadWorkerFrom_succ, threadWorkerFrom_succ]
    cases bets[i]? with
    | none => rfl
    | some bet =>
      simp only [Option.some_bind]
      cases countMatches isDrawn bet with
      | none => rfl
      | some m =>
        simp only [Option.some_bind]
        rw [ih (i + 1) (bump lc m)]
        have e2 : i + 1 + k1 = i + (k1 + 1) := by omega
        rw [e2]

/-- The worker pass does not look below its start index. -/
theorem threadWorkerFrom_cons (bet : List Int) (bets : List (List Int))
    (isDrawn : DrawTable) :
    ∀ k i localCounts, threadWorkerFrom (bet :: bets) isDrawn k (i + 1) localCounts =
      threadWorkerFrom bets isDrawn k i localCounts := by
  intro k
  induction k with
  | zero => intro i lc; rfl
  | succ k ih =>
    intro i lc
    rw [threadWorkerFrom_succ, threadWorkerFrom_succ, List.getElem?_cons_succ]
    cases bets[i]? with
    | none => rfl
    | some b =>
      simp only [Option.some_bind]
      cases countMatches isDrawn b with
      | none => rfl
      | some m =>
        simp only [Option.some_bind]
        exact ih (i + 1) (bump lc m)

/-- One pass over the whole bet list, unfolded at its first bet. -/
theorem threadWorker_whole_cons (bet : List Int) (bets : List (List Int))
    (isDrawn : DrawTable) (localCounts : Tally) :
    threadWorker (bet :: bets) isDrawn localCounts 0 (bet :: bets).length =
      (countMatches isDrawn bet).bind
        (fun m => threadWorker bets isDrawn (bump localCounts m) 0 bets.length) := by
  unfold threadWorker
  simp only [List.length_cons, Nat.sub_zero]
  rw [threadWorkerFrom_succ]
  simp only [List.getElem?_cons_zero, Option.some_bind]
  cases countMatches isDrawn bet with
  | none => rfl
  | some m =>
    simp only [Option.some_bind]
    exact threadWorkerFrom_cons bet bets isDrawn _ 0 _

/-! ## The split of `main` and the aggregation -/

theorem aggregateFrom_cons (matchCounts local1 : Tally) (rest : List Tally) :
    aggregateFrom matchCounts (local1 :: rest) =
      aggregateFrom (addTally matchCounts local1) rest := rfl

/-- One iteration of the launch loop of `main`. -/
theorem launchFrom_succ (bets : List (List Int)) (isDrawn : DrawTable)
    (nThreads bpt k t : Nat) :
    launchFrom bets isDrawn nThreads bpt (k + 1) t =
      (threadWorker bets isDrawn zeroTally (startIdx bpt t)
        (endIdx bets.length nThreads bpt t)).bind
        (fun local1 => (launchFrom bets isDrawn nThreads bpt k (t + 1)).map
          (fun rest => local1 :: rest)) := by
  rw [launchFrom]
  cases threadWorker bets isDrawn zeroTally (startIdx bpt t)
      (endIdx bets.length nThreads bpt t) with
  | none => rfl
  | some local1 =>
    simp only [Option.some_bind]
    cases launchFrom bets isDrawn nThreads bpt k (t + 1) with
    | none => rfl
    | some rest => rfl

theorem capacity_le (betsSize nThreads : Nat) :
    (nThreads - 1) * (betsSize / nThreads) ≤ betsSize :=
  Nat.le_trans (Nat.mul_le_mul_right _ (Nat.sub_le _ _)) (Nat.mul_div_le _ _)

/-- Launching the threads `t, …, nThreads - 1` and adding their tallies to
`acc` is one worker pass from `acc` over the bets from `t * bpt` on. -/
theorem launchFrom_aggregate (bets : List (List Int)) (isDrawn : DrawTable)
    (nThreads bpt : Nat) (hcap : (nThreads - 1) * bpt ≤ bets.length) :
    ∀ k t acc, t + (k + 1) = nThreads →
      (launchFrom bets isDrawn nThreads bpt (k + 1) t).map (aggregateFrom acc) =
        threadWorkerFrom bets isDrawn (bets.length - t * bpt) (t * bpt) acc := by
  intro k
  induction k with
  | zero =>
    intro t acc ht
    have hlast : t = nThreads - 1 := by omega
    rw [launchFrom_succ]
    simp only [endIdx, if_pos hlast, startIdx, threadWorker, launchFrom, Option.map_some']
    rw [threadWorkerFrom_add bets isDrawn _ _ acc]
    cases threadWorkerFrom bets isDrawn (bets.length - t * bpt) (t * bpt) zeroTally with
    | none => rfl
    | some l => simp [aggregateFrom]
  | succ k ih =>
    intro t acc ht
    have hnot : ¬ t = nThreads - 1 := by omega
    have hle : (t + 1) * bpt ≤ bets.length :=
      Nat.le_trans (Nat.mul_le_mul_right _ (by omega)) hcap
    have hsz : bets.length - t * bpt = bpt + (bets.length - (t + 1) * bpt) := by
      rw [Nat.add_mul, Nat.one_mul] at hle ⊢
      omega
    rw [launchFrom_succ, hsz, threadWorkerFrom_append,
      threadWorkerFrom_add bets isDrawn bpt (t * bpt) acc]
    simp only [endIdx, if_neg hnot, startIdx, threadWorker, Nat.add_sub_cancel_left]
    cases threadWorkerFrom bets isDrawn bpt (t * bpt) zeroTally with
    | none => rfl
    | some l =>
      simp only [Option.some_bind, Option.map_some', Option.map_map]
      have h := ih (t + 1) (addTally acc l) (by omega)
      have hmul : t * bpt + bpt = (t + 1) * bpt := by rw [Nat.add_mul, Nat.one_mul]
      rw [hmul, ← h]
      rfl

/-- The split into `nThreads ≥ 1` ranges with any number `bpt` of bets per
thread that leaves the last start index inside the bet list reports the
tally of one pass over all bets. -/
theorem dispatch_eq_whole (bets : List (List Int)) (isDrawn : DrawTable)
    (nThreads bpt : Nat) (hW : 1 ≤ nThreads)
    (hcap : (nThreads - 1) * bpt ≤ bets.length) :
    dispatch bets isDrawn nThreads bpt =
      threadWorker bets isDrawn zeroTally 0 bets.length := by
  obtain ⟨k, rfl⟩ : ∃ k, nThreads = k + 1 := ⟨nThreads - 1, by omega⟩
  have h := launchFrom_aggregate bets isDrawn (k + 1) bpt hcap k 0 zeroTally (by omega)
  simp only [Nat.zero_mul, Nat.sub_zero] at h
  unfold dispatch launchThreads threadWorker
  rw [Nat.sub_zero, ← h]
  cases launchFrom bets isDrawn (k + 1) bpt (k + 1) 0 with
  | none => rfl
  | some l => rfl

/-! ## One pass over all bets -/

theorem bump_apply (localCounts : Tally) (m : Nat) (j : Fin 4) :
    bump localCounts m j = localCounts j + (if m = j.val + 2 then 1 else 0) := by
  unfold bump
  by_cases h : 2 ≤ m ∧ m ≤ 5
  · rw [dif_pos h, Function.update_apply]
    by_cases hj : j = ⟨m - 2, by omega⟩
    · have hm : m = j.val + 2 := by rw [hj]; simp only []; omega
      rw [if_pos hj, if_pos hm, ← hj]
    · have hm : ¬ m = j.val + 2 := by
        intro hm
        apply hj
        apply Fin.ext
        simp only []
        omega
      rw [if_neg hj, if_neg hm, Nat.add_zero]
  · have hm : ¬ m = j.val + 2 := by
      intro hm
      have := j.isLt
      omega
    rw [dif_neg h, if_neg hm, Nat.add_zero]

theorem tallySum_bump_le (localCounts : Tally) (m : Nat) :
    tallySum (bump localCounts m) ≤ tallySum localCounts + 1 := by
  unfold tallySum
  rw [bump_apply, bump_apply, bump_apply, bump_apply]
  simp only [Fin.val_zero, Fin.val_one, Fin.val_two]
  have h3 : ((3 : Fin 4) : Nat) = 3 := rfl
  rw [h3]
  split_ifs <;> omega

theorem betsWithMatches_cons (isDrawn : DrawTable) (bet : List Int)
    (bets : List (List Int)) (m k : Nat) (h : countMatches isDrawn bet = some m) :
    betsWithMatches isDrawn (bet :: bets) k =
      betsWithMatches isDrawn bets k + (if m = k then 1 else 0) := by
  unfold betsWithMatches
  rw [List.countP_cons, h]
  by_cases hk : m = k
  · simp [hk]
  · simp [hk]

/-- A pass over all bets adds to bucket `j` the number of bets with exactly
`j + 2` matches. -/
theorem threadWorker_whole_counts (isDrawn : DrawTable) (bets : List (List Int)) :
    ∀ localCounts r, threadWorker bets isDrawn localCounts 0 bets.length = some r →
      ∀ j : Fin 4, r j = localCounts j + betsWithMatches isDrawn bets (j.val + 2) := by
  induction bets with
  | nil =>
    intro lc r h j
    simp [threadWorker, threadWorkerFrom] at h
    simp [← h, betsWithMatches]
  | cons bet bets ih =>
    intro lc r h j
    rw [threadWorker_whole_cons] at h
    cases hm : countMatches isDrawn bet with
    | none => rw [hm] at h; exact absurd h (by simp)
    | some m =>
      rw [hm, Option.some_bind] at h
      rw [ih _ _ h j, bump_apply, betsWithMatches_cons isDrawn bet bets m _ hm]
      omega

theorem threadWorker_whole_sum_le (isDrawn : DrawTable) (bets : List (List Int)) :
    ∀ localCounts r, threadWorker bets isDrawn localCounts 0 bets.length = some r →
      tallySum r ≤ tallySum localCounts + bets.length := by
  induction bets with
  | nil =>
    intro lc r h
    simp [threadWorker, threadWorkerFrom] at h
    simp [← h]
  | cons bet bets ih =>
    intro lc r h
    rw [threadWorker_whole_cons] at h
    cases hm : countMatches isDrawn bet with
    | none => rw [hm] at h; exact absurd h (by simp)
    | some m =>
      rw [hm, Option.some_bind] at h
      have h1 := ih _ _ h
      have h2 := tallySum_bump_le lc m
      simp only [List.length_cons]
      omega

theorem threadWorker_whole_isSome (isDrawn : DrawTable) (bets : List (List Int))
    (hr : BetsInRange bets) :
    ∀ localCounts, ∃ r, threadWorker bets isDrawn localCounts 0 bets.length = some r := by
  induction bets with
  | nil => intro lc; exact ⟨lc, rfl⟩
  | cons bet bets ih =>
    intro lc
    rw [threadWorker_whole_cons,
      countMatches_eq_marked isDrawn bet (hr bet (List.mem_cons_self _ _)), Option.some_bind]
    exact ih (fun b hb => hr b (List.mem_cons_of_mem _ hb)) _

/-! ## The lookup table of a draw -/

theorem markAll_spec (drawn : List Int) (hr : DrawInRange drawn) :
    ∀ isDrawn0 : DrawTable, ∃ isDrawn, markAll drawn isDrawn0 = some isDrawn ∧
      ∀ n : Fin 91, isDrawn n = true ↔ (isDrawn0 n = true ∨ (n.val : Int) ∈ drawn) := by
  induction drawn with
  | nil => intro t0; exact ⟨t0, rfl, fun n => by simp⟩
  | cons v rest ih =>
    intro t0
    have hv : InRange v := hr v (List.mem_cons_self _ _)
    have hv1 : 0 ≤ v ∧ v < 91 := ⟨hv.1, by have := hv.2; omega⟩
    obtain ⟨t, ht, hspec⟩ := ih (fun w hw => hr w (List.mem_cons_of_mem _ hw))
      (Function.update t0 ⟨v.toNat, by omega⟩ true)
    refine ⟨t, ?_, ?_⟩
    · rw [markAll, markDrawn, dif_pos hv1]
      exact ht
    · intro n
      rw [hspec n, Function.update_apply, List.mem_cons]
      have hn : n = (⟨v.toNat, by omega⟩ : Fin 91) ↔ (n.val : Int) = v := by
        constructor
        · intro h; rw [h]; simp only []; omega
        · intro h; apply Fin.ext; simp only []; omega
      by_cases hnv : n = (⟨v.toNat, by omega⟩ : Fin 91)
      · rw [if_pos hnv]
        have := hn.mp hnv
        simp [this]
      · rw [if_neg hnv]
        have : ¬ (n.val : Int) = v := fun h => hnv (hn.mpr h)
        simp [this]

theorem buildIsDrawn_spec (drawn : List Int) (hr : DrawInRange drawn) :
    ∃ isDrawn, buildIsDrawn drawn = some isDrawn ∧
      ∀ n : Fin 91, isDrawn n = true ↔ (n.val : Int) ∈ drawn := by
  obtain ⟨t, ht, hspec⟩ := markAll_spec drawn hr emptyTable
  exact ⟨t, ht, fun n => by rw [hspec n]; simp [emptyTable]⟩

theorem mainTally_eq_whole (nThreads : Nat) (bets : List (List Int))
    (drawn : List Int) (hW : 1 ≤ nThreads) :
    mainTally nThreads bets drawn =
      (buildIsDrawn drawn).bind
        (fun isDrawn => threadWorker bets isDrawn zeroTally 0 bets.length) := by
  have h0 : ¬ nThreads = 0 := by omega
  unfold mainTally numThreads betsPerThread drawCycle
  rw [if_neg h0]
  simp only []
  cases buildIsDrawn drawn with
  | none => rfl
  | some isDrawn =>
    simp only [Option.some_bind]
    exact dispatch_eq_whole bets isDrawn nThreads _ hW (capacity_le _ _)

theorem mainReport_eq_whole (nThreads : Nat) (bets : List (List Int))
    (drawn : List Int) (hW : 1 ≤ nThreads) :
    mainReport nThreads bets drawn =
      ((buildIsDrawn drawn).bind
        (fun isDrawn => threadWorker bets isDrawn zeroTally 0 bets.length)).map printed := by
  unfold mainReport
  rw [mainTally_eq_whole nThreads bets drawn hW]

theorem printed_of_counts (isDrawn : DrawTable) (bets : List (List Int)) (r : Tally)
    (h : ∀ j : Fin 4, r j = zeroTally j + betsWithMatches isDrawn bets (j.val + 2)) :
    printed r = [betsWithMatches isDrawn bets 2, betsWithMatches isDrawn bets 3,
      betsWithMatches isDrawn bets 4, betsWithMatches isDrawn bets 5] := by
  unfold printed
  rw [h 0, h 1, h 2, h 3]
  simp [zeroTally]
  rfl

/-- The aggregation loop gives the same counters for two orders of the same
local tallies. -/
theorem aggregateFrom_perm (l1 l2 : List Tally) (h : l1.Perm l2) :
    ∀ acc, aggregateFrom acc l1 = aggregateFrom acc l2 := by
  induction h with
  | nil => intro acc; rfl
  | cons x _ ih => intro acc; exact ih (addTally acc x)
  | swap x y l =>
    intro acc
    simp only [aggregateFrom_cons]
    rw [addTally_right_comm]
  | trans _ _ ih1 ih2 => intro acc; rw [ih1 acc, ih2 acc]

/-- The number of `true` entries of the table of a draw without repetition
is the length of the draw. -/
theorem card_marked_eq_length (drawn : List Int) (hnd : drawn.Nodup)
    (hr : DrawInRange drawn) (isDrawn : DrawTable)
    (hspec : ∀ n : Fin 91, isDrawn n = true ↔ (n.val : Int) ∈ drawn) :
    (Finset.univ.filter (fun n : Fin 91 => isDrawn n = true)).card = drawn.length := by
  have hinj : Function.Injective (fun n : Fin 91 => (n.val : Int)) := by
    intro a b hab
    apply Fin.ext
    simp only [] at hab
    omega
  have himg : (Finset.univ.filter (fun n : Fin 91 => isDrawn n = true)).image
      (fun n : Fin 91 => (n.val : Int)) = drawn.toFinset := by
    ext x
    simp only [Finset.mem_image, Finset.mem_filter, Finset.mem_univ, true_and,
      List.mem_toFinset]
    constructor
    · rintro ⟨n, hn, rfl⟩
      exact (hspec n).mp hn
    · intro hx
      have hx1 := hr x hx
      have hx2 : x.toNat < 91 := by have := hx1.1; have := hx1.2; omega
      refine ⟨⟨x.toNat, hx2⟩, ?_, ?_⟩
      · rw [hspec]
        have e : ((x.toNat : Nat) : Int) = x := Int.toNat_of_nonneg hx1.1
        simp only [e]
        exact hx
      · exact Int.toNat_of_nonneg hx1.1
  rw [← Finset.card_image_of_injective _ hinj, himg, List.toFinset_card_of_nodup hnd]

/-! ## The empty bet store and the sizes of the ranges -/

theorem launchFrom_nil (isDrawn : DrawTable) (nThreads : Nat) :
    ∀ k t, launchFrom [] isDrawn nThreads 0 k t = some (List.replicate k zeroTally) := by
  intro k
  induction k with
  | zero => intro t; rfl
  | succ k ih =>
    intro t
    have hw : threadWorker [] isDrawn zeroTally (startIdx 0 t)
        (endIdx ([] : List (List Int)).length nThreads 0 t) = some zeroTally := by
      have he : endIdx ([] : List (List Int)).length nThreads 0 t = 0 := by
        unfold endIdx startIdx
        split <;> simp
      rw [he]
      rfl
    rw [launchFrom_succ, hw, Option.some_bind, ih (t + 1)]
    rfl

theorem aggregateFrom_replicate_zero (k : Nat) (acc : Tally) :
    aggregateFrom acc (List.replicate k zeroTally) = acc := by
  induction k with
  | zero => rfl
  | succ k ih => rw [List.replicate_succ, aggregateFrom_cons, addTally_zero, ih]

theorem rangeSize_first (N W t : Nat) (ht : t + 1 < W) :
    rangeSize N W (N / W) t = N / W := by
  have hne : ¬ t = W - 1 := by omega
  unfold rangeSize endIdx startIdx
  rw [if_neg hne, Nat.add_sub_cancel_left]

theorem rangeSize_last (N W : Nat) (hW : 1 ≤ W) :
    rangeSize N W (N / W) (W - 1) = N / W + N % W := by
  unfold rangeSize endIdx startIdx
  rw [if_pos rfl]
  obtain ⟨k, rfl⟩ : ∃ k, W = k + 1 := ⟨W - 1, by omega⟩
  have h1 := Nat.div_add_mod N (k + 1)
  rw [Nat.add_mul, Nat.one_mul] at h1
  rw [Nat.add_sub_cancel]
  generalize k * (N / (k + 1)) = kq at h1 ⊢
  generalize N / (k + 1) = q at h1 ⊢
  generalize N % (k + 1) = r at h1 ⊢
  omega

/-! ## Bets without repeated numbers -/

theorem readTable_true_iff (isDrawn : DrawTable) (drawn : List Int)
    (hspec : ∀ n : Fin 91, isDrawn n = true ↔ (n.val : Int) ∈ drawn)
    (v : Int) (hv : InRange v) :
    readTable isDrawn v = some true ↔ v ∈ drawn := by
  have h1 : 0 ≤ v ∧ v < 91 := ⟨hv.1, by have := hv.2; omega⟩
  unfold readTable
  rw [dif_pos h1, Option.some.injEq, hspec]
  have e : ((v.toNat : Nat) : Int) = v := Int.toNat_of_nonneg hv.1
  simp only [e]

theorem markedPositions_eq_countP_mem (isDrawn : DrawTable) (drawn : List Int)
    (hspec : ∀ n : Fin 91, isDrawn n = true ↔ (n.val : Int) ∈ drawn)
    (bet : List Int) (hr : ∀ v ∈ bet, InRange v) :
    markedPositions isDrawn bet = bet.countP (fun v => decide (v ∈ drawn)) := by
  unfold markedPositions
  apply List.countP_congr
  intro v hv
  simp only [decide_eq_true_eq]
  exact readTable_true_iff isDrawn drawn hspec v (hr v hv)

theorem markedPositions_le_draw (isDrawn : DrawTable) (drawn : List Int)
    (hspec : ∀ n : Fin 91, isDrawn n = true ↔ (n.val : Int) ∈ drawn)
    (bet : List Int) (hr : ∀ v ∈ bet, InRange v) (hnd : bet.Nodup) :
    markedPositions isDrawn bet ≤ drawn.length := by
  rw [markedPositions_eq_countP_mem isDrawn drawn hspec bet hr, List.countP_eq_length_filter]
  have hnd2 : (bet.filter (fun v => decide (v ∈ drawn))).Nodup := hnd.filter _
  have hsub : bet.filter (fun v => decide (v ∈ drawn)) ⊆ drawn := by
    intro x hx
    have := (List.mem_filter.mp hx).2
    simpa using this
  exact (List.subperm_of_subset hnd2 hsub).length_le

theorem bump_one_bucket (m : Nat) (h2 : 2 ≤ m) (h5 : m ≤ 5) :
    ∃ j : Fin 4, m = j.val + 2 ∧
      ∀ (localCounts : Tally) (i : Fin 4),
        bump localCounts m i = localCounts i + (if i = j then 1 else 0) := by
  refine ⟨⟨m - 2, by omega⟩, by simp only []; omega, ?_⟩
  intro lc i
  rw [bump_apply]
  by_cases hi : i = ⟨m - 2, by omega⟩
  · have : m = i.val + 2 := by rw [hi]; simp only []; omega
    rw [if_pos this, if_pos hi]
  · have : ¬ m = i.val + 2 := by
      intro hm
      apply hi
      apply Fin.ext
      simp only []
      omega
    rw [if_neg this, if_neg hi]

theorem betsWithTwoOrMore_cons (isDrawn : DrawTable) (bet : List Int)
    (bets : List (List Int)) (m : Nat) (h : countMatches isDrawn bet = some m) :
    betsWithTwoOrMore isDrawn (bet :: bets) =
      betsWithTwoOrMore isDrawn bets + (if 2 ≤ m then 1 else 0) := by
  unfold betsWithTwoOrMore
  rw [List.countP_cons, h]
  by_cases hk : 2 ≤ m
  · simp [hk]
  · simp [hk]

theorem sum_betsWithMatches (isDrawn : DrawTable) (bets : List (List Int))
    (h : ∀ bet ∈ bets, ∃ m, countMatches isDrawn bet = some m ∧ m ≤ 5) :
    betsWithMatches isDrawn bets 2 + betsWithMatches isDrawn bets 3 +
      betsWithMatches isDrawn bets 4 + betsWithMatches isDrawn bets 5 =
      betsWithTwoOrMore isDrawn bets := by
  induction bets with
  | nil => rfl
  | cons bet bets ih =>
    obtain ⟨m, hm, h5⟩ := h bet (List.mem_cons_self _ _)
    have ih2 := ih (fun b hb => h b (List.mem_cons_of_mem _ hb))
    rw [betsWithMatches_cons isDrawn bet bets m 2 hm,
      betsWithMatches_cons isDrawn bet bets m 3 hm,
      betsWithMatches_cons isDrawn bet bets m 4 hm,
      betsWithMatches_cons isDrawn bet bets m 5 hm,
      betsWithTwoOrMore_cons isDrawn bet bets m hm, ← ih2]
    split_ifs <;> omega

theorem tallySum_of_counts (isDrawn : DrawTable) (bets : List (List Int)) (r : Tally)
    (h : ∀ j : Fin 4, r j = zeroTally j + betsWithMatches isDrawn bets (j.val + 2)) :
    tallySum r = betsWithMatches isDrawn bets 2 + betsWithMatches isDrawn bets 3 +
      betsWithMatches isDrawn bets 4 + betsWithMatches isDrawn bets 5 := by
  unfold tallySum
  rw [h 0, h 1, h 2, h 3]
  simp [zeroTally]
  rfl

/-! ## Reading a draw line -/

theorem extractInt_of_failed (s : InputStream) (old : Int) (h : s.failed = true) :
    extractInt s old = (old, s) := by
  unfold extractInt
  rw [if_pos h]

theorem storedValues_length : ∀ k s, (storedValues k s).length = k := by
  intro k
  induction k with
  | zero => intro s; rfl
  | succ k ih => intro s; simp [storedValues, ih]

theorem storedValues_of_failed :
    ∀ k s, s.failed = true → storedValues k s = List.replicate k 0 := by
  intro k
  induction k with
  | zero => intro s _; rfl
  | succ k ih =>
    intro s h
    rw [storedValues, extractInt_of_failed s 0 h, List.replicate_succ]
    simp only []
    rw [ih s h]

theorem parsedValues_length_le : ∀ n s, (parsedValues n s).length ≤ n := by
  intro n
  induction n with
  | zero => intro s; simp [parsedValues]
  | succ n ih =>
    intro s
    unfold parsedValues
    split
    · simp
    · have := ih (extractInt s 0).2
      simp only [List.length_cons]
      omega

/-- What a read that fails on a stream that had not failed stores in a
variable holding 0: 0 when no number is in front, and the nearest bound of
`int` when the number in front is outside the range of `int`. -/
theorem extractInt_value_of_fail (s : InputStream) (hs : s.failed = false)
    (hf : (extractInt s 0).2.failed = true) :
    (pendingNumber s = none ∧ (extractInt s 0).1 = 0) ∨
    (∃ v, pendingNumber s = some v ∧ intMax < v ∧ (extractInt s 0).1 = intMax) ∨
    (∃ v, pendingNumber s = some v ∧ v < intMin ∧ (extractInt s 0).1 = intMin) := by
  have hs1 : ¬ s.failed = true := by rw [hs]; simp
  unfold extractInt at hf ⊢
  unfold pendingNumber
  rw [if_neg hs1] at hf ⊢
  cases hd : s.buf.dropWhile isSpace with
  | nil => exact Or.inl ⟨rfl, rfl⟩
  | cons c cs =>
    rw [hd] at hf
    simp only [] at hf ⊢
    generalize (if c = '-' ∨ c = '+' then cs else c :: cs) = body at hf ⊢
    by_cases hdig : List.takeWhile Char.isDigit body = []
    · simp only [if_pos hdig]
      exact Or.inl ⟨trivial, trivial⟩
    · simp only [if_neg hdig] at hf ⊢
      by_cases hneg : c = '-'
      · simp only [if_pos hneg] at hf ⊢
        by_cases h1 : -(decimalValue (List.takeWhile Char.isDigit body) : Int) < intMin
        · simp only [if_pos h1]
          exact Or.inr (Or.inr ⟨_, rfl, h1, trivial⟩)
        · simp only [if_neg h1] at hf ⊢
          by_cases h2 : intMax < -(decimalValue (List.takeWhile Char.isDigit body) : Int)
          · simp only [if_pos h2]
            exact Or.inr (Or.inl ⟨_, rfl, h2, trivial⟩)
          · simp only [if_neg h2] at hf
            exact absurd hf (by simp)
      · simp only [if_neg hneg] at hf ⊢
        by_cases h1 : (decimalValue (List.takeWhile Char.isDigit body) : Int) < intMin
        · simp only [if_pos h1]
          exact Or.inr (Or.inr ⟨_, rfl, h1, trivial⟩)
        · simp only [if_neg h1] at hf ⊢
          by_cases h2 : intMax < (decimalValue (List.takeWhile Char.isDigit body) : Int)
          · simp only [if_pos h2]
            exact Or.inr (Or.inl ⟨_, rfl, h2, trivial⟩)
          · simp only [if_neg h2] at hf
            exact absurd hf (by simp)

/-- What the reads store when one of them fails: the extracted values, then
the value left by the read that fails at the stop, then zeros. -/
theorem storedValues_eq : ∀ n s, s.failed = false → (parsedValues n s).length < n →
    storedValues n s =
      parsedValues n s ++ (extractInt (stopStream n s) 0).1 ::
        List.replicate (n - 1 - (parsedValues n s).length) 0 ∧
    (stopStream n s).failed = false ∧
    (extractInt (stopStream n s) 0).2.failed = true := by
  intro n
  induction n with
  | zero => intro s _ h; exact absurd h (Nat.not_lt_zero _)
  | succ n ih =>
    intro s hs h
    by_cases hf : (extractInt s 0).2.failed = true
    · have hp : parsedValues (n + 1) s = [] := by
        rw [parsedValues, if_pos hf]
      have hstop : stopStream (n + 1) s = s := by
        rw [stopStream, if_pos hf]
      rw [hp, hstop]
      refine ⟨?_, hs, hf⟩
      rw [storedValues, storedValues_of_failed n _ hf]
      simp
    · have hp : parsedValues (n + 1) s =
          (extractInt s 0).1 :: parsedValues n (extractInt s 0).2 := by
        rw [parsedValues, if_neg hf]
      have hstop : stopStream (n + 1) s = stopStream n (extractInt s 0).2 := by
        rw [stopStream, if_neg hf]
      rw [hp, List.length_cons] at h
      obtain ⟨hst, hnf, hfail⟩ := ih (extractInt s 0).2 (by simpa using hf) (by omega)
      rw [hp, hstop]
      refine ⟨?_, hnf, hfail⟩
      rw [storedValues, hst, List.length_cons, List.cons_append]
      have e : n + 1 - 1 - ((parsedValues n (extractInt s 0).2).length + 1) =
          n - 1 - (parsedValues n (extractInt s 0).2).length := by omega
      rw [e]

theorem take_succ_set (v : Int) : ∀ (l : List Int) (i : Nat), i < l.length →
    (l.set i v).take (i + 1) = l.take i ++ [v] := by
  intro l
  induction l with
  | nil => intro i h; exact absurd h (Nat.not_lt_zero _)
  | cons a l ih =>
    intro i h
    cases i with
    | zero => simp
    | succ i =>
      simp only [List.set_cons_succ, List.take_succ_cons, List.cons_append]
      rw [ih i (by simpa using h)]

/-- The loop of `readDrawnValues` on a vector whose positions from `i` on
hold 0 stores there what the reads leave in variables that hold 0. -/
theorem readDrawnFrom_eq : ∀ k i s (drawn : List Int), drawn.length = i + k →
    (∀ j, i ≤ j → j < i + k → drawn[j]? = some 0) →
    readDrawnFrom k i s drawn = some (drawn.take i ++ storedValues k s) := by
  intro k
  induction k with
  | zero =>
    intro i s drawn hl _
    rw [readDrawnFrom, storedValues, List.append_nil, List.take_of_length_le (by omega)]
  | succ k ih =>
    intro i s drawn hl hz
    rw [readDrawnFrom, hz i (Nat.le_refl i) (by omega)]
    simp only []
    rw [ih (i + 1) _ _ (by rw [List.length_set]; omega) ?_]
    · rw [take_succ_set _ drawn i (by omega), storedValues, List.append_assoc]
      rfl
    · intro j hj1 hj2
      rw [List.getElem?_set_ne (by omega)]
      exact hz j (by omega) (by omega)

theorem readDrawnValues_eq (inputLine : String) :
    readDrawnValues inputLine (List.replicate 5 0) =
      some (storedValues 5 ⟨inputLine.toList, false⟩) := by
  unfold readDrawnValues
  rw [readDrawnFrom_eq 5 0 _ _ (by simp) ?_]
  · simp
  · intro j _ hj
    exact List.getElem?_replicate_of_lt (by omega)

/-! ## The draw loop -/

theorem drawStep_eq (st : MainState) (inputLine : String) :
    drawStep st inputLine =
      (resultLine st.bets st.numThreads st.betsPerThread inputLine).map
        (fun r => { st with out := st.out ++ [r] }) := by
  unfold drawStep resultLine
  cases readDrawnValues inputLine (List.replicate 5 0) with
  | none => rfl
  | some drawn =>
    simp only []
    cases drawCycle st.bets st.numThreads st.betsPerThread drawn with
    | none => rfl
    | some c => rfl

theorem beforeSentinel_cons_end (rest : List String) :
    beforeSentinel ("end" :: rest) = [] := by
  simp [beforeSentinel]

theorem beforeSentinel_cons_ne (inputLine : String) (rest : List String)
    (h : inputLine ≠ "end") :
    beforeSentinel (inputLine :: rest) = inputLine :: beforeSentinel rest := by
  simp [beforeSentinel, h]

/-- The draw loop appends to the output the result lines of the input lines
before the finishing token, and changes nothing else. -/
theorem drawLoop_eq : ∀ (stdinLines : List String) (st : MainState),
    drawLoop st stdinLines =
      (resultLines st.bets st.numThreads st.betsPerThread (beforeSentinel stdinLines)).map
        (fun rs => { st with out := st.out ++ rs }) := by
  intro stdinLines
  induction stdinLines with
  | nil => intro st; simp [drawLoop, beforeSentinel, resultLines]
  | cons inputLine rest ih =>
    intro st
    by_cases h : inputLine = "end"
    · subst h
      rw [beforeSentinel_cons_end]
      simp [drawLoop, resultLines]
    · rw [beforeSentinel_cons_ne inputLine rest h, drawLoop, if_neg h, drawStep_eq,
        resultLines]
      cases resultLine st.bets st.numThreads st.betsPerThread inputLine with
      | none => rfl
      | some r =>
        simp only [Option.map_some']
        rw [ih]
        simp only []
        cases resultLines st.bets st.numThreads st.betsPerThread (beforeSentinel rest) with
        | none => rfl
        | some rs => simp

theorem resultLines_spec (bets : List (List Int)) (nThreads bpt : Nat) :
    ∀ (inputLines rs : List String), resultLines bets nThreads bpt inputLines = some rs →
      List.Forall₂ (fun inputLine r => resultLine bets nThreads bpt inputLine = some r)
        inputLines rs := by
  intro inputLines
  induction inputLines with
  | nil =>
    intro rs h
    simp only [resultLines, Option.some.injEq] at h
    rw [← h]
    exact List.Forall₂.nil
  | cons inputLine rest ih =>
    intro rs h
    rw [resultLines] at h
    cases hr : resultLine bets nThreads bpt inputLine with
    | none => rw [hr] at h; exact absurd h (by simp)
    | some r =>
      rw [hr] at h
      simp only [] at h
      cases hrs : resultLines bets nThreads bpt rest with
      | none => rw [hrs] at h; exact absurd h (by simp)
      | some rs1 =>
        rw [hrs] at h
        simp only [Option.some.injEq] at h
        rw [← h]
        exact List.Forall₂.cons hr (ih rs1 hrs)

theorem resultLine_isSome (bets : List (List Int)) (nThreads : Nat) (inputLine : String)
    (hW : 1 ≤ nThreads) (hb : BetsInRange bets) (hl : LineInRange inputLine) :
    ∃ r, resultLine bets nThreads (bets.length / nThreads) inputLine = some r := by
  have hd := hl _ (readDrawnValues_eq inputLine)
  obtain ⟨isDrawn, hbuild, _⟩ := buildIsDrawn_spec _ hd
  obtain ⟨c, hc⟩ := threadWorker_whole_isSome isDrawn bets hb zeroTally
  refine ⟨formatTally c, ?_⟩
  unfold resultLine drawCycle
  rw [readDrawnValues_eq]
  simp only [hbuild]
  rw [dispatch_eq_whole bets isDrawn nThreads _ hW (capacity_le _ _), hc]
  rfl

theorem resultLines_isSome (bets : List (List Int)) (nThreads : Nat)
    (hW : 1 ≤ nThreads) (hb : BetsInRange bets) :
    ∀ inputLines : List String, (∀ inputLine ∈ inputLines, LineInRange inputLine) →
      ∃ rs, resultLines bets nThreads (bets.length / nThreads) inputLines = some rs := by
  intro inputLines
  induction inputLines with
  | nil => intro _; exact ⟨[], rfl⟩
  | cons inputLine rest ih =>
    intro h
    obtain ⟨r, hr⟩ := resultLine_isSome bets nThreads inputLine hW hb
      (h inputLine (List.mem_cons_self _ _))
    obtain ⟨rs, hrs⟩ := ih (fun l hl => h l (List.mem_cons_of_mem _ hl))
    exact ⟨r :: rs, by rw [resultLines, hr]; simp only []; rw [hrs]⟩

/-! ## Reading the bet file -/

theorem length_dropWhile_lt_of_takeWhile_ne_nil (p : Char → Bool) (l : List Char)
    (h : l.takeWhile p ≠ []) : (l.dropWhile p).length < l.length := by
  have h1 := congrArg List.length (List.takeWhile_append_dropWhile p l)
  rw [List.length_append] at h1
  have h2 : 0 < (l.takeWhile p).length := List.length_pos.mpr h
  omega

/-- A read that succeeds consumes at least one character. -/
theorem extractInt_ok_shorter (s : InputStream) (old : Int)
    (h : (extractInt s old).2.failed = false) :
    (extractInt s old).2.buf.length < s.buf.length := by
  unfold extractInt at h ⊢
  split at h
  · rename_i hf
    simp only [] at h
    rw [hf] at h
    exact absurd h (by simp)
  · split at h
    · exact absurd h (by simp)
    · rename_i c cs heq
      have hsuf : (c :: cs).length ≤ s.buf.length := by
        rw [← heq]
        exact (List.dropWhile_suffix isSpace).length_le
      rw [if_neg (by assumption)]
      simp only [heq]
      simp only [] at h
      rw [List.length_cons] at hsuf
      have hbody : (if c = '-' ∨ c = '+' then cs else c :: cs).length ≤ cs.length + 1 := by
        split <;> simp
      generalize (if c = '-' ∨ c = '+' then cs else c :: cs) = body at h hbody ⊢
      by_cases hd : List.takeWhile Char.isDigit body = []
      · rw [if_pos hd] at h
        exact absurd h (by simp)
      · have hlt := length_dropWhile_lt_of_takeWhile_ne_nil Char.isDigit body hd
        rw [if_neg hd] at h ⊢
        split_ifs at h ⊢
        all_goals first
          | (exfalso; simp at h; done)
          | (simp only []; omega)

theorem readBetFrom_isSome : ∀ fuel s dataLine, s.buf.length < fuel →
    ∃ r, readBetFrom fuel s dataLine = some r := by
  intro fuel
  induction fuel with
  | zero => intro s _ h; exact absurd h (Nat.not_lt_zero _)
  | succ fuel ih =>
    intro s dataLine h
    unfold readBetFrom
    by_cases hf : (extractInt s 0).2.failed = true
    · exact ⟨dataLine, by rw [if_pos hf]⟩
    · rw [if_neg hf]
      have hlt := extractInt_ok_shorter s 0 (by simpa using hf)
      exact ih _ _ (by omega)

/-- The bound on the turns of the reading loop is never reached: every bet
file is read into a bet store. -/
theorem readBets_isSome : ∀ fileLines : List String, ∃ bets, readBets fileLines = some bets := by
  intro fileLines
  induction fileLines with
  | nil => exact ⟨[], rfl⟩
  | cons line rest ih =>
    obtain ⟨d, hd⟩ := readBetFrom_isSome (line.length + 1) ⟨line.toList, false⟩ []
      (by show line.data.length < line.length + 1; rw [String.length_data]; omega)
    obtain ⟨bets, hb⟩ := ih
    refine ⟨d :: bets, ?_⟩
    rw [readBets, readBetLine, hd]
    simp only []
    rw [hb]

theorem beforeSentinel_idem (stdinLines : List String) :
    beforeSentinel (beforeSentinel stdinLines) = beforeSentinel stdinLines := by
  unfold beforeSentinel
  exact List.takeWhile_idem

theorem ne_end_of_mem_beforeSentinel (stdinLines : List String) (inputLine : String)
    (h : inputLine ∈ beforeSentinel stdinLines) : inputLine ≠ "end" := by
  have := List.mem_takeWhile_imp h
  simpa using this

theorem beforeSentinel_append_end (pre post : List String) (h : "end" ∉ pre) :
    beforeSentinel (pre ++ "end" :: post) = pre := by
  induction pre with
  | nil => exact beforeSentinel_cons_end post
  | cons a pre ih =>
    have ha : a ≠ "end" := fun e => h (e ▸ List.mem_cons_self _ _)
    rw [List.cons_append, beforeSentinel_cons_ne _ _ ha,
      ih (fun hm => h (List.mem_cons_of_mem _ hm))]

theorem resultLines_length (bets : List (List Int)) (nThreads bpt : Nat) :
    ∀ (inputLines rs : List String), resultLines bets nThreads bpt inputLines = some rs →
      rs.length = inputLines.length := by
  intro inputLines rs h
  exact (resultLines_spec bets nThreads bpt inputLines rs h).length_eq.symm

theorem resultLines_getElem (bets : List (List Int)) (nThreads bpt : Nat) :
    ∀ (inputLines rs : List String), resultLines bets nThreads bpt inputLines = some rs →
      ∀ (i : Nat) (inputLine : String), inputLines[i]? = some inputLine →
        ∃ r, rs[i]? = some r ∧ resultLine bets nThreads bpt inputLine = some r := by
  intro inputLines rs h
  have hf := resultLines_spec bets nThreads bpt inputLines rs h
  clear h
  induction hf with
  | nil => intro i inputLine hi; simp at hi
  | cons hab _ ih =>
    intro i inputLine hi
    cases i with
    | zero =>
      simp only [List.getElem?_cons_zero, Option.some.injEq] at hi
      subst hi
      exact ⟨_, by simp, hab⟩
    | succ i =>
      simp only [List.getElem?_cons_succ] at hi ⊢
      exact ih i inputLine hi

theorem drawLoop_single (st : MainState) (inputLine r : String) (hne : inputLine ≠ "end")
    (h : resultLine st.bets st.numThreads st.betsPerThread inputLine = some r) :
    drawLoop st [inputLine] = some { st with out := st.out ++ [r] } := by
  rw [drawLoop, if_neg hne, drawStep_eq, h]
  rfl

/-! ## The claims of the specification -/

/-- Claim C1. For every bet list, every lookup table and every worker count
`W ≥ 1` (also `W` above the number of bets), `main` computes
`floor(N / W)` bets per worker, and splitting the bets into the `W` ranges of
`main`, running `threadWorker` on each range from a zero tally and summing
the `W` local tallies element-wise gives the result of one `threadWorker`
pass over the whole range `[0, N)`, which is also the result for `W = 1`.
Both sides are defined whenever every bet value is an index of the table. -/
theorem partition_equals_single_pass (bets : List (List Int)) (isDrawn : DrawTable)
    (W : Nat) (hW : 1 ≤ W) :
    betsPerThread bets.length W = some (bets.length / W) ∧
    dispatch bets isDrawn W (bets.length / W) =
      threadWorker bets isDrawn zeroTally 0 bets.length ∧
    dispatch bets isDrawn W (bets.length / W) =
      dispatch bets isDrawn 1 (bets.length / 1) ∧
    (BetsInRange bets → ∃ r, dispatch bets isDrawn W (bets.length / W) = some r) := by
  have h0 : ¬ W = 0 := by omega
  have h1 := dispatch_eq_whole bets isDrawn W _ hW (capacity_le bets.length W)
  have h2 := dispatch_eq_whole bets isDrawn 1 _ (Nat.le_refl 1) (capacity_le bets.length 1)
  refine ⟨by rw [betsPerThread, if_neg h0], h1, by rw [h1, h2], ?_⟩
  intro hr
  rw [h1]
  exact threadWorker_whole_isSome isDrawn bets hr zeroTally

theorem partition_equals_single_pass_witness :
    1 ≤ 5 ∧ BetsInRange scenarioBets ∧
    dispatch scenarioBets scenarioTable 5 (scenarioBets.length / 5) =
      threadWorker scenarioBets scenarioTable zeroTally 0 scenarioBets.length ∧
    ∃ r, dispatch scenarioBets scenarioTable 5 (scenarioBets.length / 5) = some r :=
  ⟨by decide, by decide,
    (partition_equals_single_pass scenarioBets scenarioTable 5 (by decide)).2.1,
    (partition_equals_single_pass scenarioBets scenarioTable 5 (by decide)).2.2.2
      (by decide)⟩

/-- Claim C2. For every bet list, every draw and every worker count `W ≥ 1`,
the four numbers `main` reports are, in this order, the numbers of bets whose
`countMatches` value is exactly 2, 3, 4 and 5; the report exists whenever all
values of the draw and of the bets are indices of the table. For the bets
`[[1,2,3,4,5],[1,2,6,7,8],[9,10,11,12,13]]` and the draw `1 2 6 7 8` the
report is `1 0 0 1`. -/
theorem report_counts_exact_matches (W : Nat) (bets : List (List Int))
    (drawn : List Int) (hW : 1 ≤ W) :
    (∀ isDrawn r, buildIsDrawn drawn = some isDrawn →
      mainReport W bets drawn = some r →
      r = [betsWithMatches isDrawn bets 2, betsWithMatches isDrawn bets 3,
        betsWithMatches isDrawn bets 4, betsWithMatches isDrawn bets 5]) ∧
    (DrawInRange drawn → BetsInRange bets →
      ∃ isDrawn, buildIsDrawn drawn = some isDrawn ∧
        mainReport W bets drawn =
          some [betsWithMatches isDrawn bets 2, betsWithMatches isDrawn bets 3,
            betsWithMatches isDrawn bets 4, betsWithMatches isDrawn bets 5]) ∧
    mainReport W scenarioBets [1, 2, 6, 7, 8] = some [1, 0, 0, 1] := by
  have key : ∀ isDrawn r, buildIsDrawn drawn = some isDrawn →
      mainReport W bets drawn = some r →
      r = [betsWithMatches isDrawn bets 2, betsWithMatches isDrawn bets 3,
        betsWithMatches isDrawn bets 4, betsWithMatches isDrawn bets 5] := by
    intro isDrawn r hb hrep
    rw [mainReport_eq_whole W bets drawn hW, hb, Option.some_bind] at hrep
    cases hw : threadWorker bets isDrawn zeroTally 0 bets.length with
    | none => rw [hw] at hrep; exact absurd hrep (by simp)
    | some c =>
      rw [hw, Option.map_some', Option.some.injEq] at hrep
      rw [← hrep]
      exact printed_of_counts isDrawn bets c
        (threadWorker_whole_counts isDrawn bets zeroTally c hw)
  refine ⟨key, ?_, ?_⟩
  · intro hd hbets
    obtain ⟨isDrawn, hb, _⟩ := buildIsDrawn_spec drawn hd
    obtain ⟨c, hc⟩ := threadWorker_whole_isSome isDrawn bets hbets zeroTally
    refine ⟨isDrawn, hb, ?_⟩
    have hrep : mainReport W bets drawn = some (printed c) := by
      rw [mainReport_eq_whole W bets drawn hW, hb, Option.some_bind, hc, Option.map_some']
    rw [hrep, key isDrawn (printed c) hb hrep]
  · rw [mainReport_eq_whole W scenarioBets [1, 2, 6, 7, 8] hW]
    decide

theorem report_counts_exact_matches_witness :
    1 ≤ 2 ∧ mainReport 2 scenarioBets [1, 2, 6, 7, 8] = some [1, 0, 0, 1] :=
  ⟨by decide, (report_counts_exact_matches 2 scenarioBets [1, 2, 6, 7, 8] (by decide)).2.2⟩

/-- Claim C3, as the specification states it, fails: for the bets
`[[1,2,3,4,5],[1,2,6,7,8],[9,10,11,12,13]]` and the draw `1 2 3 4 5` the
report with one worker is not `0 0 0 1`. -/
theorem scenario_report_not_0001 :
    ¬ (mainReport 1 scenarioBets [1, 2, 3, 4, 5] = some [0, 0, 0, 1]) := by
  decide

/-- Claim C3, amended. For the bets
`[[1,2,3,4,5],[1,2,6,7,8],[9,10,11,12,13]]` and the draw `1 2 3 4 5` the
report is `1 0 0 1` for every worker count `W ≥ 1`: the second bet has 2
matches and is counted in the first bucket, the first bet has 5 matches and
is counted in the last. -/
theorem scenario_report_1001 (W : Nat) (hW : 1 ≤ W) :
    mainReport W scenarioBets [1, 2, 3, 4, 5] = some [1, 0, 0, 1] := by
  rw [mainReport_eq_whole W scenarioBets [1, 2, 3, 4, 5] hW]
  decide

theorem scenario_report_1001_witness :
    1 ≤ 4 ∧ mainReport 4 scenarioBets [1, 2, 3, 4, 5] = some [1, 0, 0, 1] :=
  ⟨by decide, scenario_report_1001 4 (by decide)⟩

/-- Claim C4. For every number of bets `N ≥ 0` and every worker count
`W ≥ 1`, `main` computes `floor(N / W)` bets per worker and its ranges
`[startIdx t, endIdx t)`, `t = 0 .. W-1`, are contiguous and do not overlap:
the first starts at 0, each ends where the next starts, the last ends at
`N`, no range ends before it starts, and a range ends at or before the start
of every later one. Each of the first `W-1` ranges holds exactly
`floor(N / W)` bets and the last holds `N - (W-1) * floor(N / W)`. When
`N < W` the first `W-1` ranges are empty, and when `N = 0` all are. -/
theorem ranges_tile_the_bets (N W : Nat) (hW : 1 ≤ W) :
    ∃ bpt, betsPerThread N W = some bpt ∧ bpt = N / W ∧
      startIdx bpt 0 = 0 ∧
      (∀ t, t + 1 < W → endIdx N W bpt t = startIdx bpt (t + 1)) ∧
      endIdx N W bpt (W - 1) = N ∧
      (∀ t, t < W → startIdx bpt t ≤ endIdx N W bpt t) ∧
      (∀ s t, s < t → t < W → endIdx N W bpt s ≤ startIdx bpt t) ∧
      (∀ t, t + 1 < W → endIdx N W bpt t - startIdx bpt t = N / W) ∧
      endIdx N W bpt (W - 1) - startIdx bpt (W - 1) = N - (W - 1) * (N / W) ∧
      (N < W → ∀ t, t + 1 < W → endIdx N W bpt t - startIdx bpt t = 0) ∧
      (N = 0 → ∀ t, t < W → endIdx N W bpt t - startIdx bpt t = 0) := by
  have h0 : ¬ W = 0 := by omega
  have hcap := capacity_le N W
  have hend : ∀ t, t + 1 < W → endIdx N W (N / W) t = t * (N / W) + N / W := by
    intro t ht
    have hne : ¬ t = W - 1 := by omega
    simp only [endIdx, if_neg hne, startIdx]
  have hlast : endIdx N W (N / W) (W - 1) = N := by simp [endIdx]
  refine ⟨N / W, by rw [betsPerThread, if_neg h0], rfl, by simp [startIdx], ?_, hlast,
    ?_, ?_, ?_, ?_, ?_, ?_⟩
  · intro t ht
    rw [hend t ht, startIdx, Nat.add_mul, Nat.one_mul]
  · intro t ht
    by_cases hl : t + 1 < W
    · rw [hend t hl, startIdx]; exact Nat.le_add_right _ _
    · have : t = W - 1 := by omega
      rw [this, hlast, startIdx]; exact hcap
  · intro s t hst ht
    rw [hend s (by omega), startIdx]
    have : (s + 1) * (N / W) ≤ t * (N / W) := Nat.mul_le_mul_right _ (by omega)
    rw [Nat.add_mul, Nat.one_mul] at this
    exact this
  · intro t ht
    rw [hend t ht, startIdx, Nat.add_sub_cancel_left]
  · rw [hlast, startIdx]
  · intro hN t ht
    rw [hend t ht, startIdx, Nat.add_sub_cancel_left, Nat.div_eq_of_lt hN]
  · intro hN t ht
    subst hN
    by_cases hl : t + 1 < W
    · rw [hend t hl, startIdx]; simp
    · have : t = W - 1 := by omega
      rw [this, hlast, Nat.zero_sub]

theorem ranges_tile_the_bets_witness :
    1 ≤ 4 ∧ ∃ bpt, betsPerThread 10 4 = some bpt ∧ bpt = 10 / 4 ∧
      startIdx bpt 0 = 0 ∧
      (∀ t, t + 1 < 4 → endIdx 10 4 bpt t = startIdx bpt (t + 1)) ∧
      endIdx 10 4 bpt (4 - 1) = 10 ∧
      (∀ t, t < 4 → startIdx bpt t ≤ endIdx 10 4 bpt t) ∧
      (∀ s t, s < t → t < 4 → endIdx 10 4 bpt s ≤ startIdx bpt t) ∧
      (∀ t, t + 1 < 4 → endIdx 10 4 bpt t - startIdx bpt t = 10 / 4) ∧
      endIdx 10 4 bpt (4 - 1) - startIdx bpt (4 - 1) = 10 - (4 - 1) * (10 / 4) ∧
      (10 < 4 → ∀ t, t + 1 < 4 → endIdx 10 4 bpt t - startIdx bpt t = 0) ∧
      (10 = 0 → ∀ t, t < 4 → endIdx 10 4 bpt t - startIdx bpt t = 0) :=
  ⟨by decide, ranges_tile_the_bets 10 4 (by decide)⟩

/-- Claim C5 fails on the code: `main` takes the reported hardware
parallelism as its worker count without a lower bound. When the platform
reports 0 the worker count is 0 and `bets.size() / numThreads` divides by
zero, for every bet file and every draw. -/
theorem zero_hardware_concurrency_divides_by_zero :
    numThreads 0 = 0 ∧
    (∀ betsSize, betsPerThread betsSize (numThreads 0) = none) ∧
    (∀ bets drawn, mainTally 0 bets drawn = none) :=
  ⟨rfl, fun _ => rfl, fun _ _ => rfl⟩

/-- Claim C6. For every lookup table and every bet whose values all lie in
`[0, 90]`, `countMatches` returns the number of positions of the bet whose
value is marked `true` in the table, a repeated value counted once per
position; the result is at most the length of the bet, and it is 0 for the
empty bet. -/
theorem countMatches_counts_marked_positions (isDrawn : DrawTable) (bet : List Int)
    (hr : ∀ v ∈ bet, InRange v) :
    countMatches isDrawn bet = some (markedPositions isDrawn bet) ∧
    markedPositions isDrawn bet ≤ bet.length ∧
    countMatches isDrawn [] = some 0 :=
  ⟨countMatches_eq_marked isDrawn bet hr, markedPositions_le isDrawn bet, rfl⟩

theorem countMatches_counts_marked_positions_witness :
    (∀ v ∈ [1, 1, 7, 2, 90], InRange v) ∧
    countMatches scenarioTable [1, 1, 7, 2, 90] =
      some (markedPositions scenarioTable [1, 1, 7, 2, 90]) ∧
    markedPositions scenarioTable [1, 1, 7, 2, 90] = 3 :=
  ⟨by decide,
    (countMatches_counts_marked_positions scenarioTable [1, 1, 7, 2, 90] (by decide)).1,
    by decide⟩

/-- Claim C7 fails on the code: neither `countMatches` nor the loop of `main`
that builds the table checks a value before it indexes the 91-entry table.
A bet value of 91 or of -1 is read outside the table whatever the table
holds, and a drawn value of 91 is written outside it; no such value is
skipped. -/
theorem out_of_range_value_indexes_outside_table :
    (∀ isDrawn, countMatches isDrawn [1, 2, 3, 4, 91] = none) ∧
    (∀ isDrawn, countMatches isDrawn [-1] = none) ∧
    buildIsDrawn [91, 1, 2, 3, 4] = none ∧
    mainTally 1 [[1, 2, 3, 4, 91]] [1, 2, 3, 4, 5] = none := by
  refine ⟨fun isDrawn => ?_, fun isDrawn => ?_, by decide, by decide⟩
  · exact countMatchesFrom_none isDrawn _ ⟨91, by decide, by decide⟩ 0
  · exact countMatchesFrom_none isDrawn _ ⟨-1, by decide, by decide⟩ 0

/-- Claim C8. For every draw of 5 distinct integers in `[0, 90]`, `main`
builds a lookup table in which, for every `n` in `[0, 90]`, entry `n` is
`true` if and only if `n` is one of the drawn numbers; exactly 5 of the 91
entries are `true`. -/
theorem isDrawn_marks_exactly_the_draw (drawn : List Int) (hlen : drawn.length = 5)
    (hnd : drawn.Nodup) (hr : DrawInRange drawn) :
    ∃ isDrawn, buildIsDrawn drawn = some isDrawn ∧
      (∀ n : Fin 91, isDrawn n = true ↔ (n.val : Int) ∈ drawn) ∧
      (∀ n : Fin 91, isDrawn n = false ↔ (n.val : Int) ∉ drawn) ∧
      (Finset.univ.filter (fun n : Fin 91 => isDrawn n = true)).card = 5 := by
  obtain ⟨isDrawn, hb, hspec⟩ := buildIsDrawn_spec drawn hr
  refine ⟨isDrawn, hb, hspec, ?_, ?_⟩
  · intro n
    rw [← hspec n]
    cases isDrawn n <;> simp
  · rw [card_marked_eq_length drawn hnd hr isDrawn hspec, hlen]

theorem isDrawn_marks_exactly_the_draw_witness :
    [3, 90, 0, 41, 17].length = 5 ∧ [3, 90, 0, 41, 17].Nodup ∧
    DrawInRange [3, 90, 0, 41, 17] ∧
    ∃ isDrawn, buildIsDrawn [3, 90, 0, 41, 17] = some isDrawn ∧
      (∀ n : Fin 91, isDrawn n = true ↔ (n.val : Int) ∈ [3, 90, 0, 41, 17]) ∧
      (∀ n : Fin 91, isDrawn n = false ↔ (n.val : Int) ∉ [3, 90, 0, 41, 17]) ∧
      (Finset.univ.filter (fun n : Fin 91 => isDrawn n = true)).card = 5 :=
  ⟨rfl, by decide, by decide,
    isDrawn_marks_exactly_the_draw [3, 90, 0, 41, 17] rfl (by decide) (by decide)⟩

/-- Claim C9. For every bet list of `N` bets, every draw and every worker
count `W ≥ 1`, the four values of the final tally of `main` sum to at most
`N`; the final tally exists whenever all values of the draw and of the bets
are indices of the table. -/
theorem tally_sum_at_most_bets (W : Nat) (bets : List (List Int)) (drawn : List Int)
    (hW : 1 ≤ W) :
    (∀ r, mainTally W bets drawn = some r → tallySum r ≤ bets.length) ∧
    (DrawInRange drawn → BetsInRange bets →
      ∃ r, mainTally W bets drawn = some r ∧ tallySum r ≤ bets.length) := by
  have key : ∀ r, mainTally W bets drawn = some r → tallySum r ≤ bets.length := by
    intro r h
    rw [mainTally_eq_whole W bets drawn hW] at h
    cases hb : buildIsDrawn drawn with
    | none => rw [hb] at h; exact absurd h (by simp)
    | some isDrawn =>
      rw [hb, Option.some_bind] at h
      have h1 := threadWorker_whole_sum_le isDrawn bets zeroTally r h
      have h2 : tallySum zeroTally = 0 := rfl
      omega
  refine ⟨key, ?_⟩
  intro hd hbets
  obtain ⟨isDrawn, hb, _⟩ := buildIsDrawn_spec drawn hd
  obtain ⟨c, hc⟩ := threadWorker_whole_isSome isDrawn bets hbets zeroTally
  have hrep : mainTally W bets drawn = some c := by
    rw [mainTally_eq_whole W bets drawn hW, hb, Option.some_bind, hc]
  exact ⟨c, hrep, key c hrep⟩

theorem tally_sum_at_most_bets_witness :
    1 ≤ 2 ∧ DrawInRange [1, 2, 6, 7, 8] ∧ BetsInRange scenarioBets ∧
    ∃ r, mainTally 2 scenarioBets [1, 2, 6, 7, 8] = some r ∧
      tallySum r ≤ scenarioBets.length :=
  ⟨by decide, by decide, by decide,
    (tally_sum_at_most_bets 2 scenarioBets [1, 2, 6, 7, 8] (by decide)).2
      (by decide) (by decide)⟩

/-- Claim C10. The aggregation step of `main`, the element-wise sum of the
per-worker tallies into `matchCounts` from `0 0 0 0`, does not depend on the
order of the tallies: for every list of per-worker tallies and every
permutation of it the aggregated tally is the same. -/
theorem aggregate_order_independent (localCounts permuted : List Tally)
    (h : localCounts.Perm permuted) :
    aggregate localCounts = aggregate permuted :=
  aggregateFrom_perm localCounts permuted h zeroTally

theorem aggregate_order_independent_witness :
    [bump zeroTally 2, bump zeroTally 5, zeroTally].Perm
        [bump zeroTally 5, bump zeroTally 2, zeroTally] ∧
    aggregate [bump zeroTally 2, bump zeroTally 5, zeroTally] =
      aggregate [bump zeroTally 5, bump zeroTally 2, zeroTally] :=
  ⟨List.Perm.swap _ _ _,
    aggregate_order_independent _ _ (List.Perm.swap _ _ _)⟩

/-- Claim C11. When the bet store is empty, for every worker count `W ≥ 1`
`main` computes 0 bets per worker, every range is empty, every per-worker
tally stays `0 0 0 0` whatever the lookup table holds, and the reported
result is `0 0 0 0`, printed as the line `0 0 0 0`, for every draw whose
values are indices of the table; no other result is reported for any
draw. -/
theorem empty_store_reports_zero (W : Nat) (hW : 1 ≤ W) :
    betsPerThread ([] : List (List Int)).length W = some 0 ∧
    (∀ t, t < W → startIdx 0 t = 0 ∧ endIdx 0 W 0 t = 0) ∧
    (∀ isDrawn, launchThreads [] isDrawn W 0 = some (List.replicate W zeroTally)) ∧
    (∀ isDrawn, dispatch [] isDrawn W 0 = some zeroTally) ∧
    (∀ drawn r, mainReport W [] drawn = some r → r = [0, 0, 0, 0]) ∧
    (∀ drawn, DrawInRange drawn → mainReport W [] drawn = some [0, 0, 0, 0] ∧
      (mainTally W [] drawn).map formatTally = some "0 0 0 0\n") := by
  have h0 : ¬ W = 0 := by omega
  have hrep : ∀ drawn, mainReport W [] drawn =
      (buildIsDrawn drawn).map (fun _ => [0, 0, 0, 0]) := by
    intro drawn
    rw [mainReport_eq_whole W [] drawn hW]
    cases buildIsDrawn drawn with
    | none => rfl
    | some isDrawn => rfl
  have htal : ∀ drawn, mainTally W [] drawn =
      (buildIsDrawn drawn).map (fun _ => zeroTally) := by
    intro drawn
    rw [mainTally_eq_whole W [] drawn hW]
    cases buildIsDrawn drawn with
    | none => rfl
    | some isDrawn => rfl
  refine ⟨?_, ?_, ?_, ?_, ?_, ?_⟩
  · rw [betsPerThread, if_neg h0]; simp
  · intro t _
    unfold endIdx startIdx
    constructor
    · simp
    · split <;> simp
  · intro isDrawn
    exact launchFrom_nil isDrawn W W 0
  · intro isDrawn
    unfold dispatch launchThreads
    rw [launchFrom_nil isDrawn W W 0]
    simp only []
    rw [aggregate, aggregateFrom_replicate_zero]
  · intro drawn r h
    rw [hrep drawn] at h
    cases hb : buildIsDrawn drawn with
    | none => rw [hb] at h; exact absurd h (by simp)
    | some isDrawn =>
      rw [hb, Option.map_some', Option.some.injEq] at h
      exact h.symm
  · intro drawn hd
    obtain ⟨isDrawn, hb, _⟩ := buildIsDrawn_spec drawn hd
    rw [hrep drawn, htal drawn, hb]
    have hline : formatTally zeroTally = "0 0 0 0\n" := by decide
    exact ⟨rfl, by rw [Option.map_some', Option.map_some', hline]⟩

theorem empty_store_reports_zero_witness :
    1 ≤ 3 ∧ DrawInRange [1, 2, 3, 4, 5] ∧
    launchThreads [] scenarioTable 3 0 = some (List.replicate 3 zeroTally) ∧
    mainReport 3 [] [1, 2, 3, 4, 5] = some [0, 0, 0, 0] :=
  ⟨by decide, by decide,
    (empty_store_reports_zero 3 (by decide)).2.2.1 scenarioTable,
    ((empty_store_reports_zero 3 (by decide)).2.2.2.2.2 [1, 2, 3, 4, 5] (by decide)).1⟩

/-- Claim C16, as the specification states it, fails: it is not true that
for every `N` and every `W ≥ 1` the sizes of any two ranges differ by at most
1. For 7 bets and 4 workers the first range holds 1 bet and the last 4. -/
theorem ranges_not_balanced :
    ¬ (∀ N W, 1 ≤ W → ∀ s t, s < W → t < W →
      rangeSize N W (N / W) s ≤ rangeSize N W (N / W) t + 1) := by
  intro h
  exact absurd (h 7 4 (by decide) 3 0 (by decide) (by decide)) (by decide)

/-- Claim C16, amended. For every `N ≥ 0` and every `W ≥ 1` the first `W-1`
ranges of `main` all hold `floor(N / W)` bets and the last holds
`floor(N / W) + N mod W`: the sizes of any two ranges differ by at most
`N mod W`, which is below `W`. -/
theorem ranges_differ_by_remainder (N W : Nat) (hW : 1 ≤ W) :
    (∀ t, t + 1 < W → rangeSize N W (N / W) t = N / W) ∧
    rangeSize N W (N / W) (W - 1) = N / W + N % W ∧
    N % W < W ∧
    (∀ s t, s < W → t < W →
      rangeSize N W (N / W) s ≤ rangeSize N W (N / W) t + N % W) := by
  have hfirst := rangeSize_first N W
  have hlast := rangeSize_last N W hW
  refine ⟨hfirst, hlast, Nat.mod_lt _ (by omega), ?_⟩
  intro s t hs ht
  have hs1 : rangeSize N W (N / W) s = N / W ∨
      rangeSize N W (N / W) s = N / W + N % W := by
    by_cases h : s + 1 < W
    · exact Or.inl (hfirst s h)
    · have : s = W - 1 := by omega
      rw [this]; exact Or.inr hlast
  have ht1 : rangeSize N W (N / W) t = N / W ∨
      rangeSize N W (N / W) t = N / W + N % W := by
    by_cases h : t + 1 < W
    · exact Or.inl (hfirst t h)
    · have : t = W - 1 := by omega
      rw [this]; exact Or.inr hlast
  generalize rangeSize N W (N / W) s = a at hs1
  generalize rangeSize N W (N / W) t = b at ht1
  generalize N / W = q at hs1 ht1
  generalize N % W = r at hs1 ht1
  omega

theorem ranges_differ_by_remainder_witness :
    1 ≤ 4 ∧ rangeSize 7 4 (7 / 4) 0 = 7 / 4 ∧
    rangeSize 7 4 (7 / 4) (4 - 1) = 7 / 4 + 7 % 4 :=
  ⟨by decide, (ranges_differ_by_remainder 7 4 (by decide)).1 0 (by decide),
    (ranges_differ_by_remainder 7 4 (by decide)).2.1⟩

/-- Claim C18. Matches are counted per position of the bet, not per distinct
number, and a bet with more than 5 matches is counted in no bucket. For the
draw `1 2 3 4 5` the bet `[1,1,2,2,3,3]`, whose values are indices of the
table and which shares 3 numbers with the draw, has 6 matches; `threadWorker`
on it leaves every tally as it was, and `main` reports `0 0 0 0`. -/
theorem repeated_numbers_overshoot_buckets :
    (∃ isDrawn, buildIsDrawn [1, 2, 3, 4, 5] = some isDrawn ∧
      countMatches isDrawn [1, 1, 2, 2, 3, 3] = some 6 ∧
      ∀ localCounts, threadWorker [[1, 1, 2, 2, 3, 3]] isDrawn localCounts 0 1 =
        some localCounts) ∧
    (∀ localCounts m, 5 < m → bump localCounts m = localCounts) ∧
    mainReport 1 [[1, 1, 2, 2, 3, 3]] [1, 2, 3, 4, 5] = some [0, 0, 0, 0] := by
  refine ⟨?_, ?_, by decide⟩
  · obtain ⟨isDrawn, hb, hspec⟩ := buildIsDrawn_spec [1, 2, 3, 4, 5] (by decide)
    have hc : countMatches isDrawn [1, 1, 2, 2, 3, 3] = some 6 := by
      have h := hb ▸ (by decide :
        (buildIsDrawn [1, 2, 3, 4, 5]).bind
          (fun t => countMatches t [1, 1, 2, 2, 3, 3]) = some 6)
      exact h
    refine ⟨isDrawn, hb, hc, ?_⟩
    intro lc
    unfold threadWorker
    rw [threadWorkerFrom_succ]
    simp [hc, threadWorkerFrom, bump]
  · intro lc m hm
    unfold bump
    rw [dif_neg (by omega)]

/-- Claim C17. For every draw of 5 integers in `[0, 90]` and every bet store
whose bets hold pairwise distinct integers in `[0, 90]` (bets of any length),
`countMatches` of every bet is at most 5 and at most the length of the bet;
every bet with at least 2 matches raises exactly one bucket by one, and for
every worker count `W ≥ 1` the four values of the final tally sum to the
number of bets with at least 2 matches. -/
theorem distinct_bets_counted_once (W : Nat) (bets : List (List Int)) (drawn : List Int)
    (hW : 1 ≤ W) (hlen : drawn.length = 5) (hd : DrawInRange drawn)
    (hb : BetsInRange bets) (hnd : ∀ bet ∈ bets, bet.Nodup) :
    ∃ isDrawn, buildIsDrawn drawn = some isDrawn ∧
      (∀ bet ∈ bets, ∃ m, countMatches isDrawn bet = some m ∧ m ≤ 5 ∧ m ≤ bet.length ∧
        (2 ≤ m → ∃ j : Fin 4, m = j.val + 2 ∧
          ∀ (localCounts : Tally) (i : Fin 4),
            bump localCounts m i = localCounts i + (if i = j then 1 else 0))) ∧
      ∃ r, mainTally W bets drawn = some r ∧
        tallySum r = betsWithTwoOrMore isDrawn bets := by
  obtain ⟨isDrawn, hbuild, hspec⟩ := buildIsDrawn_spec drawn hd
  have hbets : ∀ bet ∈ bets, ∃ m, countMatches isDrawn bet = some m ∧ m ≤ 5 ∧
      m ≤ bet.length := by
    intro bet hbet
    refine ⟨markedPositions isDrawn bet, countMatches_eq_marked isDrawn bet (hb bet hbet),
      ?_, markedPositions_le isDrawn bet⟩
    rw [← hlen]
    exact markedPositions_le_draw isDrawn drawn hspec bet (hb bet hbet) (hnd bet hbet)
  refine ⟨isDrawn, hbuild, ?_, ?_⟩
  · intro bet hbet
    obtain ⟨m, hm, h5, hl⟩ := hbets bet hbet
    exact ⟨m, hm, h5, hl, fun h2 => bump_one_bucket m h2 h5⟩
  · obtain ⟨c, hc⟩ := threadWorker_whole_isSome isDrawn bets hb zeroTally
    refine ⟨c, ?_, ?_⟩
    · rw [mainTally_eq_whole W bets drawn hW, hbuild, Option.some_bind, hc]
    · rw [tallySum_of_counts isDrawn bets c
        (threadWorker_whole_counts isDrawn bets zeroTally c hc)]
      exact sum_betsWithMatches isDrawn bets
        (fun bet hbet => (hbets bet hbet).imp (fun m hm => ⟨hm.1, hm.2.1⟩))

theorem distinct_bets_counted_once_witness :
    1 ≤ 2 ∧ [1, 2, 6, 7, 8].length = 5 ∧ DrawInRange [1, 2, 6, 7, 8] ∧
    BetsInRange scenarioBets ∧ (∀ bet ∈ scenarioBets, bet.Nodup) ∧
    ∃ isDrawn, buildIsDrawn [1, 2, 6, 7, 8] = some isDrawn ∧
      (∀ bet ∈ scenarioBets, ∃ m, countMatches isDrawn bet = some m ∧ m ≤ 5 ∧
        m ≤ bet.length ∧
        (2 ≤ m → ∃ j : Fin 4, m = j.val + 2 ∧
          ∀ (localCounts : Tally) (i : Fin 4),
            bump localCounts m i = localCounts i + (if i = j then 1 else 0))) ∧
      ∃ r, mainTally 2 scenarioBets [1, 2, 6, 7, 8] = some r ∧
        tallySum r = betsWithTwoOrMore isDrawn scenarioBets :=
  ⟨by decide, rfl, by decide, by decide, by decide,
    distinct_bets_counted_once 2 scenarioBets [1, 2, 6, 7, 8] (by decide) rfl
      (by decide) (by decide) (by decide)⟩

/-- Claim C13, as the specification states it, fails: the draw line
`1 2 99999999999` yields only 2 integers, and `readDrawnValues` leaves the
third position at `INT_MAX`, not at 0. -/
theorem short_draw_line_not_all_zero :
    ¬ (∀ inputLine : String,
      (parsedValues 5 ⟨inputLine.toList, false⟩).length < 5 →
      ∀ drawn, readDrawnValues inputLine (List.replicate 5 0) = some drawn →
        ∀ i, (parsedValues 5 ⟨inputLine.toList, false⟩).length ≤ i → i < 5 →
          drawn[i]? = some 0) := by
  intro h
  have h1 := h "1 2 99999999999" (by decide) [1, 2, 2147483647, 0, 0] (by decide) 2
    (by decide) (by decide)
  exact absurd h1 (by decide)

/-- Claim C13, amended. For a draw line that yields only `k < 5` integers,
`readDrawnValues` leaves the remaining `5 - k` positions of the draw at 0
when reading stops at the end of the line or at text that is no integer.
Reading stops at an integer only when it is outside the range of `int`;
then position `k` holds `INT_MAX`, or `INT_MIN` for one below the range, and
the `4 - k` positions after it hold 0. When reading stops at no integer and
the `k` parsed integers are indices of the table, the zeros match no bet
value: for every bet of integers in `[1, 90]` the table is built and the
match count is the number of positions of the bet whose value is among the
`k` parsed integers. -/
theorem short_draw_line_zero_filled (inputLine : String)
    (hk : (parsedValues 5 ⟨inputLine.toList, false⟩).length < 5) :
    (pendingNumber (stopStream 5 ⟨inputLine.toList, false⟩) = none →
      readDrawnValues inputLine (List.replicate 5 0) =
        some (parsedValues 5 ⟨inputLine.toList, false⟩ ++
          List.replicate (5 - (parsedValues 5 ⟨inputLine.toList, false⟩).length) 0)) ∧
    (∀ v, pendingNumber (stopStream 5 ⟨inputLine.toList, false⟩) = some v →
      (intMax < v ∧
        readDrawnValues inputLine (List.replicate 5 0) =
          some (parsedValues 5 ⟨inputLine.toList, false⟩ ++ intMax ::
            List.replicate (4 - (parsedValues 5 ⟨inputLine.toList, false⟩).length) 0)) ∨
      (v < intMin ∧
        readDrawnValues inputLine (List.replicate 5 0) =
          some (parsedValues 5 ⟨inputLine.toList, false⟩ ++ intMin ::
            List.replicate (4 - (parsedValues 5 ⟨inputLine.toList, false⟩).length) 0))) ∧
    (pendingNumber (stopStream 5 ⟨inputLine.toList, false⟩) = none →
      DrawInRange (parsedValues 5 ⟨inputLine.toList, false⟩) →
      ∀ bet : List Int, (∀ v ∈ bet, 1 ≤ v ∧ v ≤ 90) →
        ∃ isDrawn,
          buildIsDrawn (parsedValues 5 ⟨inputLine.toList, false⟩ ++
            List.replicate (5 - (parsedValues 5 ⟨inputLine.toList, false⟩).length) 0) =
            some isDrawn ∧
          countMatches isDrawn bet =
            some (bet.countP (fun v =>
              decide (v ∈ parsedValues 5 ⟨inputLine.toList, false⟩)))) := by
  obtain ⟨hst, hnf, hfail⟩ := storedValues_eq 5 ⟨inputLine.toList, false⟩ rfl hk
  have hval := extractInt_value_of_fail _ hnf hfail
  have hrep : ∀ n : Nat, n < 5 → List.replicate (5 - n) (0 : Int) =
      0 :: List.replicate (4 - n) 0 := by
    intro n hn
    have e : 5 - n = (4 - n) + 1 := by omega
    rw [e, List.replicate_succ]
  have hzero : pendingNumber (stopStream 5 ⟨inputLine.toList, false⟩) = none →
      readDrawnValues inputLine (List.replicate 5 0) =
        some (parsedValues 5 ⟨inputLine.toList, false⟩ ++
          List.replicate (5 - (parsedValues 5 ⟨inputLine.toList, false⟩).length) 0) := by
    intro hnone
    rw [readDrawnValues_eq, hst, hrep _ hk]
    rcases hval with ⟨_, h0⟩ | ⟨v, hv, _⟩ | ⟨v, hv, _⟩
    · rw [h0]
    · rw [hnone] at hv; exact absurd hv (by simp)
    · rw [hnone] at hv; exact absurd hv (by simp)
  refine ⟨hzero, ?_, ?_⟩
  · intro v hv
    rw [readDrawnValues_eq, hst]
    rcases hval with ⟨hnone, _⟩ | ⟨v1, hv1, hgt, hmax⟩ | ⟨v1, hv1, hlt, hmin⟩
    · rw [hnone] at hv; exact absurd hv (by simp)
    · have e : v = v1 := Option.some.inj (hv.symm.trans hv1)
      rw [e, hmax]
      exact Or.inl ⟨hgt, rfl⟩
    · have e : v = v1 := Option.some.inj (hv.symm.trans hv1)
      rw [e, hmin]
      exact Or.inr ⟨hlt, rfl⟩
  · intro hnone hd bet hbet
    have hdall : DrawInRange (parsedValues 5 ⟨inputLine.toList, false⟩ ++
        List.replicate (5 - (parsedValues 5 ⟨inputLine.toList, false⟩).length) 0) := by
      intro x hx
      rcases List.mem_append.mp hx with h | h
      · exact hd x h
      · rw [(List.mem_replicate.mp h).2]
        decide
    obtain ⟨isDrawn, hb, hspec⟩ := buildIsDrawn_spec _ hdall
    have hr : ∀ v ∈ bet, InRange v := fun v hv =>
      ⟨by have := (hbet v hv).1; omega, (hbet v hv).2⟩
    refine ⟨isDrawn, hb, ?_⟩
    rw [countMatches_eq_marked isDrawn bet hr,
      markedPositions_eq_countP_mem isDrawn _ hspec bet hr]
    congr 1
    apply List.countP_congr
    intro v hv
    have hv1 := (hbet v hv).1
    simp only [decide_eq_true_eq, List.mem_append, List.mem_replicate]
    constructor
    · rintro (h | h)
      · exact h
      · omega
    · intro h
      exact Or.inl h

theorem short_draw_line_zero_filled_witness :
    (parsedValues 5 ⟨"7 8 x".toList, false⟩).length < 5 ∧
    parsedValues 5 ⟨"7 8 x".toList, false⟩ = [7, 8] ∧
    pendingNumber (stopStream 5 ⟨"7 8 x".toList, false⟩) = none ∧
    DrawInRange (parsedValues 5 ⟨"7 8 x".toList, false⟩) ∧
    (∀ v ∈ [7, 9, 8, 7, 90], 1 ≤ v ∧ v ≤ 90) ∧
    readDrawnValues "7 8 x" (List.replicate 5 0) = some [7, 8, 0, 0, 0] ∧
    readDrawnValues "7 8" (List.replicate 5 0) = some [7, 8, 0, 0, 0] ∧
    (∃ isDrawn, buildIsDrawn [7, 8, 0, 0, 0] = some isDrawn ∧
      countMatches isDrawn [7, 9, 8, 7, 90] = some 3) ∧
    (parsedValues 5 ⟨"1 2 99999999999".toList, false⟩).length < 5 ∧
    pendingNumber (stopStream 5 ⟨"1 2 99999999999".toList, false⟩) = some 99999999999 ∧
    ((intMax < 99999999999 ∧
        readDrawnValues "1 2 99999999999" (List.replicate 5 0) =
          some [1, 2, intMax, 0, 0]) ∨
      (99999999999 < intMin ∧
        readDrawnValues "1 2 99999999999" (List.replicate 5 0) =
          some [1, 2, intMin, 0, 0])) :=
  ⟨by decide, by decide, by decide, by decide, by decide,
    (short_draw_line_zero_filled "7 8 x" (by decide)).1 (by decide),
    (short_draw_line_zero_filled "7 8" (by decide)).1 (by decide),
    (short_draw_line_zero_filled "7 8 x" (by decide)).2.2 (by decide) (by decide)
      [7, 9, 8, 7, 90] (by decide),
    by decide, by decide,
    (short_draw_line_zero_filled "1 2 99999999999" (by decide)).2.1 99999999999
      (by decide)⟩

/-- Claim C12. For every sequence of draw input lines, the draw loop appends
to the output exactly one result line per input line that precedes the first
line equal to `end`, in input order, the line that the loop body prints for
that input line; the loop does the same as on the lines before the first
`end` alone, so the `end` line and the lines after it emit nothing. The
comparison is exact: `End` and `end ` followed by a blank are processed as
draws. The loop finishes whenever the state holds `W ≥ 1` workers,
`floor(N / W)` bets per worker and bets in range, and every line before the
first `end` reads into a draw in range. -/
theorem draw_loop_one_line_per_draw (st : MainState) (stdinLines : List String) :
    (∀ st1, drawLoop st stdinLines = some st1 →
      ∃ results, st1.out = st.out ++ results ∧
        results.length = (beforeSentinel stdinLines).length ∧
        List.Forall₂
          (fun inputLine r => drawStep st inputLine = some { st with out := st.out ++ [r] })
          (beforeSentinel stdinLines) results) ∧
    drawLoop st stdinLines = drawLoop st (beforeSentinel stdinLines) ∧
    (∀ pre post : List String, "end" ∉ pre → beforeSentinel (pre ++ "end" :: post) = pre) ∧
    beforeSentinel ["1 2 3 4 5", "End", "end ", "end", "1 2 6 7 8"] =
      ["1 2 3 4 5", "End", "end "] ∧
    drawLoop scenarioState ["1 2 3 4 5", "End", "end ", "end", "1 2 6 7 8"] =
      some { scenarioState with
        out := ["READY\n", "1 0 0 1\n", "0 0 0 0\n", "0 0 0 0\n"] } ∧
    (1 ≤ st.numThreads → st.betsPerThread = st.bets.length / st.numThreads →
      BetsInRange st.bets →
      (∀ inputLine ∈ beforeSentinel stdinLines, LineInRange inputLine) →
      ∃ st1, drawLoop st stdinLines = some st1) := by
  refine ⟨?_, ?_, beforeSentinel_append_end, by decide, by decide, ?_⟩
  · intro st1 h
    rw [drawLoop_eq] at h
    cases hrs : resultLines st.bets st.numThreads st.betsPerThread
        (beforeSentinel stdinLines) with
    | none => rw [hrs] at h; exact absurd h (by simp)
    | some rs =>
      rw [hrs, Option.map_some', Option.some.injEq] at h
      refine ⟨rs, by rw [← h], resultLines_length _ _ _ _ _ hrs, ?_⟩
      refine (resultLines_spec _ _ _ _ _ hrs).imp ?_
      intro inputLine r hr
      rw [drawStep_eq, hr]
      rfl
  · rw [drawLoop_eq, drawLoop_eq (beforeSentinel stdinLines) st, beforeSentinel_idem]
  · intro hW hbpt hb hl
    rw [drawLoop_eq, hbpt]
    obtain ⟨rs, hrs⟩ := resultLines_isSome st.bets st.numThreads hW hb
      (beforeSentinel stdinLines) hl
    exact ⟨_, by rw [hrs]; rfl⟩

theorem draw_loop_one_line_per_draw_witness :
    ∃ st1, drawLoop scenarioState ["1 2 3 4 5", "End", "end", "7 8 9 10 11"] = some st1 :=
  (draw_loop_one_line_per_draw scenarioState
    ["1 2 3 4 5", "End", "end", "7 8 9 10 11"]).2.2.2.2.2
    (by decide) (by decide) (by decide)
    (by
      intro inputLine hmem drawn hdrawn
      have hcases : inputLine = "1 2 3 4 5" ∨ inputLine = "End" := by
        have h2 : inputLine ∈ ["1 2 3 4 5", "End"] := hmem
        simpa using h2
      rcases hcases with h | h
      · subst h
        have e : drawn = [1, 2, 3, 4, 5] :=
          Option.some.inj (hdrawn.symm.trans (by decide))
        rw [e]; decide
      · subst h
        have e : drawn = [0, 0, 0, 0, 0] :=
          Option.some.inj (hdrawn.symm.trans (by decide))
        rw [e]; decide)

/-- Claim C14. The draw loop never changes the bet store, the worker count
or the bets per worker, in no single cycle and over no sequence of draw
lines, and the line it reports for a draw at any position of the sequence is
the line that the loop reports when that draw is the only input: the result
does not depend on the draws before it, and a draw that occurs twice gets the
same result twice. -/
theorem draw_result_depends_on_draw_only (st : MainState) (stdinLines : List String)
    (st1 : MainState) (h : drawLoop st stdinLines = some st1) :
    st1.bets = st.bets ∧ st1.numThreads = st.numThreads ∧
    st1.betsPerThread = st.betsPerThread ∧
    (∀ inputLine st2, drawStep st inputLine = some st2 → st2.bets = st.bets) ∧
    (∀ i inputLine, (beforeSentinel stdinLines)[i]? = some inputLine →
      ∃ r, st1.out[st.out.length + i]? = some r ∧
        drawLoop ⟨st.bets, st.numThreads, st.betsPerThread, []⟩ [inputLine] =
          some ⟨st.bets, st.numThreads, st.betsPerThread, [r]⟩) ∧
    (∀ i j inputLine, (beforeSentinel stdinLines)[i]? = some inputLine →
      (beforeSentinel stdinLines)[j]? = some inputLine →
      st1.out[st.out.length + i]? = st1.out[st.out.length + j]?) := by
  rw [drawLoop_eq] at h
  cases hrs : resultLines st.bets st.numThreads st.betsPerThread
      (beforeSentinel stdinLines) with
  | none => rw [hrs] at h; exact absurd h (by simp)
  | some rs =>
    rw [hrs, Option.map_some', Option.some.injEq] at h
    subst h
    have hidx : ∀ i inputLine, (beforeSentinel stdinLines)[i]? = some inputLine →
        ∃ r, (st.out ++ rs)[st.out.length + i]? = some r ∧
          resultLine st.bets st.numThreads st.betsPerThread inputLine = some r := by
      intro i inputLine hi
      obtain ⟨r, hr1, hr2⟩ := resultLines_getElem _ _ _ _ _ hrs i inputLine hi
      refine ⟨r, ?_, hr2⟩
      rw [List.getElem?_append_right (by omega), Nat.add_sub_cancel_left]
      exact hr1
    refine ⟨rfl, rfl, rfl, ?_, ?_, ?_⟩
    · intro inputLine st2 h2
      rw [drawStep_eq] at h2
      cases hr : resultLine st.bets st.numThreads st.betsPerThread inputLine with
      | none => rw [hr] at h2; exact absurd h2 (by simp)
      | some r =>
        rw [hr, Option.map_some', Option.some.injEq] at h2
        rw [← h2]
    · intro i inputLine hi
      obtain ⟨r, hr1, hr2⟩ := hidx i inputLine hi
      have hne := ne_end_of_mem_beforeSentinel stdinLines inputLine
        (List.mem_iff_getElem?.mpr ⟨i, hi⟩)
      exact ⟨r, hr1, drawLoop_single ⟨st.bets, st.numThreads, st.betsPerThread, []⟩
        inputLine r hne hr2⟩
    · intro i j inputLine hi hj
      obtain ⟨r, hr1, hr2⟩ := hidx i inputLine hi
      obtain ⟨r', hr1', hr2'⟩ := hidx j inputLine hj
      rw [hr1, hr1', ← hr2, ← hr2']

theorem draw_result_depends_on_draw_only_witness :
    drawLoop scenarioState ["1 2 3 4 5", "1 2 6 7 9", "1 2 3 4 5", "end"] =
      some { scenarioState with
        out := ["READY\n", "1 0 0 1\n", "1 0 1 0\n", "1 0 0 1\n"] } ∧
    ∃ r, ["READY\n", "1 0 0 1\n", "1 0 1 0\n", "1 0 0 1\n"][1 + 2]? = some r ∧
      drawLoop ⟨scenarioBets, 2, 1, []⟩ ["1 2 3 4 5"] = some ⟨scenarioBets, 2, 1, [r]⟩ :=
  ⟨by decide,
    (draw_result_depends_on_draw_only scenarioState
      ["1 2 3 4 5", "1 2 6 7 9", "1 2 3 4 5", "end"]
      { scenarioState with out := ["READY\n", "1 0 0 1\n", "1 0 1 0\n", "1 0 0 1\n"] }
      (by decide)).2.2.2.2.1 2 "1 2 3 4 5" (by decide)⟩

/-- Claim C15. `main` returns a non-zero exit code exactly when no bet-source
argument is given (`argc < 2`), and then it writes neither the `READY` line
nor a result line. With a bet-source argument the bet file is always read
into a bet store, and when `W ≥ 1`, the bets are in range and every line
before the first `end` reads into a draw in range, `main` returns 0 after
the `READY` line and one result line per draw line before `end`. -/
theorem exit_code_tells_missing_argument (args fileLines : List String)
    (hardwareConcurrency : Nat) (stdinLines : List String) :
    (args.length + 1 < 2 →
      main args fileLines hardwareConcurrency stdinLines = some (1, [])) ∧
    (∀ code out, main args fileLines hardwareConcurrency stdinLines = some (code, out) →
      (code ≠ 0 ↔ args.length + 1 < 2) ∧ (code = 0 → out.head? = some "READY\n")) ∧
    (¬ args.length + 1 < 2 → 1 ≤ hardwareConcurrency →
      ∃ bets, readBets fileLines = some bets ∧
        (BetsInRange bets →
          (∀ inputLine ∈ beforeSentinel stdinLines, LineInRange inputLine) →
          ∃ results,
            main args fileLines hardwareConcurrency stdinLines =
              some (0, "READY\n" :: results) ∧
            results.length = (beforeSentinel stdinLines).length)) := by
  refine ⟨?_, ?_, ?_⟩
  · intro h
    rw [main, if_pos h]
  · intro code out h
    by_cases ha : args.length + 1 < 2
    · rw [main, if_pos ha, Option.some.injEq, Prod.mk.injEq] at h
      rw [← h.1]
      exact ⟨⟨fun _ => ha, fun _ => by decide⟩, fun h0 => absurd h0 (by decide)⟩
    · rw [main, if_neg ha] at h
      cases hb : readBets fileLines with
      | none => rw [hb] at h; exact absurd h (by simp)
      | some bets =>
        rw [hb] at h
        simp only [] at h
        cases hp : betsPerThread bets.length (numThreads hardwareConcurrency) with
        | none => rw [hp] at h; exact absurd h (by simp)
        | some bpt =>
          rw [hp] at h
          simp only [] at h
          rw [drawLoop_eq] at h
          simp only [] at h
          cases hrs : resultLines bets (numThreads hardwareConcurrency) bpt
              (beforeSentinel stdinLines) with
          | none => rw [hrs] at h; exact absurd h (by simp)
          | some rs =>
            rw [hrs] at h
            simp only [Option.map_some', Option.some.injEq, Prod.mk.injEq] at h
            rw [← h.1, ← h.2]
            exact ⟨⟨fun h0 => absurd rfl h0, fun h2 => absurd h2 ha⟩, fun _ => rfl⟩
  · intro ha hW
    obtain ⟨bets, hb⟩ := readBets_isSome fileLines
    refine ⟨bets, hb, ?_⟩
    intro hr hl
    have h0 : ¬ hardwareConcurrency = 0 := by omega
    obtain ⟨rs, hrs⟩ := resultLines_isSome bets hardwareConcurrency hW hr
      (beforeSentinel stdinLines) hl
    refine ⟨rs, ?_, resultLines_length _ _ _ _ _ hrs⟩
    rw [main, if_neg ha, hb]
    simp only [betsPerThread, numThreads, if_neg h0]
    rw [drawLoop_eq]
    simp only []
    rw [hrs]
    rfl

theorem exit_code_tells_missing_argument_witness :
    main [] ["1 2 3 4 5"] 4 ["1 2 3 4 5", "end"] = some (1, []) ∧
    main ["input.txt"] ["1 2 3 4 5"] 4 ["1 2 3 4 5", "end"] =
      some (0, ["READY\n", "0 0 0 1\n"]) :=
  ⟨(exit_code_tells_missing_argument [] ["1 2 3 4 5"] 4 ["1 2 3 4 5", "end"]).1 (by decide),
    by decide⟩

end LottoApp
